import Mathlib

/-!
Laplace-pyramid fusion of correlation spectra (phaser_core).

A shallow embedding of `phaser_core/src/backend/fusion/laplace-pyramid.cc`.

Modelling conventions.

* A `complex_t` (`std::array<double, 2>`, layout-compatible with `fftw_complex`)
  is a pair of rationals: all arithmetic is exact, so nothing here speaks about
  floating-point rounding.
* `std::vector<complex_t>` and the raw `fftw_complex*` buffers are lists.
* `uint32_t` values are natural numbers; every place where the source narrows
  to or subtracts in `uint32_t` is written with an explicit `% 2 ^ 32`.
* A call either returns a value or stops with a `Fault`: a failed glog `CHECK`
  (the process aborts) or an access outside a buffer (undefined behaviour in
  C++, reported here instead of being given a meaning).
* A list is never a null pointer, so the `CHECK_NOTNULL` lines of the source
  never fire and are left out.
* Memory is not bounded: creating a buffer of any `uint32_t` size succeeds
  here, where the allocator of the real program throws `std::bad_alloc` once
  the size is beyond what the machine has. A returned buffer therefore stands
  for the real one only at sizes the program can allocate.

The second part, namespace `correlation`, embeds the constructor and
`complexMulSeq` of `phaser_core/src/backend/correlation/spatial-correlation-low-pass.cc`
with the same conventions.
-/

namespace fusion

/-- A complex coefficient `(re, im)`: index `[0]` is `.1`, index `[1]` is `.2`. -/
abbrev complex_t : Type := ℚ × ℚ

/-- A pyramid level `std::pair<low_pass, residual>`: `.first` is `.1`, `.second` is `.2`. -/
abbrev PyramidLevel : Type := List complex_t × List complex_t

/-- The ways a call can stop without returning. -/
inductive Fault where
  /-- a glog `CHECK`, `CHECK_GT` or `CHECK_NOTNULL` failed: the process aborts -/
  | check_failed
  /-- an element outside a buffer was read or written -/
  | out_of_bounds
  deriving DecidableEq, Repr

/-- Width of `uint32_t`. -/
def U32 : ℕ := 2 ^ 32

/-- Conversion of an unsigned value (`size_t`) to `uint32_t`. -/
def toU32 (x : ℕ) : ℕ := x % U32

/-- Subtraction `a - b` of two `uint32_t` values, wrapping around. -/
def subU32 (a b : ℕ) : ℕ := (a % U32 + (U32 - b % U32)) % U32

/-- The function `std::round`: nearest integer, halfway cases away from zero. -/
def round (x : ℚ) : ℤ :=
  if 0 ≤ x then Rat.floor (x + 1 / 2) else -Rat.floor (-x + 1 / 2)

/-- The expression `std::round(n_coeffs / divider_)` stored in a `uint32_t`,
as in the first line of `reduce` and of `expand`. The quotient is exact.
The conversion of a negative or too large value is undefined in C++; here a
negative value gives `0` and a large one is taken modulo `2 ^ 32`. -/
def lower_bound (divider_ : ℚ) (n_coeffs : ℕ) : ℕ :=
  toU32 (round ((n_coeffs : ℚ) / divider_)).toNat

/-- The value `upper_bound = n_coeffs - lower_bound` of `reduce` and `expand`. -/
def upper_bound (divider_ : ℚ) (n_coeffs : ℕ) : ℕ :=
  subU32 n_coeffs (lower_bound divider_ n_coeffs)

/-- The value `n_low_pass = upper_bound - lower_bound` of `reduce`. -/
def n_low_pass (divider_ : ℚ) (n_coeffs : ℕ) : ℕ :=
  subU32 (upper_bound divider_ n_coeffs) (lower_bound divider_ n_coeffs)

/-- Read `xs[i]`. -/
def readAt {α : Type} (xs : List α) (i : ℕ) : Except Fault α :=
  match xs[i]? with
  | some x => .ok x
  | none => .error .out_of_bounds

/-- Assign `xs[i] = v`. -/
def writeAt {α : Type} (xs : List α) (i : ℕ) (v : α) : Except Fault (List α) :=
  if i < xs.length then .ok (xs.set i v) else .error .out_of_bounds

/-- Run `body i` for `cnt` consecutive values of `i`, threading the state and
stopping at the first fault. -/
def forLoop {σ : Type} (body : ℕ → σ → Except Fault σ) : ℕ → ℕ → σ → Except Fault σ
  | 0, _, s => .ok s
  | cnt + 1, i, s =>
    match body i s with
    | .ok s' => forLoop body cnt (i + 1) s'
    | .error e => .error e

/-- The loop `for (uint32_t i = lo; i < hi; ++i) body`: it runs `hi - lo` times
when `lo < hi` and not at all otherwise. -/
def forRange {σ : Type} (lo hi : ℕ) (body : ℕ → σ → Except Fault σ) (s : σ) :
    Except Fault σ :=
  forLoop body (hi - lo) lo s

/-- A value-initialised `std::vector<complex_t>(n)`. -/
def zeros (n : ℕ) : List complex_t := List.replicate n (0, 0)

/-- Body of the first loop of `reduce`; the state is
`(coeff_low_pass_full, coeff_low_pass, k)`. -/
def reduceBandStep (coefficients : List complex_t) (i : ℕ)
    (s : List complex_t × List complex_t × ℕ) :
    Except Fault (List complex_t × List complex_t × ℕ) := do
  let c ← readAt coefficients i
  let full ← writeAt s.1 i (c.1, c.2)
  let low ← writeAt s.2.1 s.2.2 (c.1, c.2)
  pure (full, low, s.2.2 + 1)

/-- Body of the second loop of `reduce`; the state is `coeff_laplace`. -/
def reduceDiffStep (coefficients coeff_low_pass_full : List complex_t) (i : ℕ)
    (coeff_laplace : List complex_t) : Except Fault (List complex_t) := do
  let c ← readAt coefficients i
  let f ← readAt coeff_low_pass_full i
  writeAt coeff_laplace i (c.1 - f.1, c.2 - f.2)

/-- The function `LaplacePyramid::reduce`. -/
def reduce (divider_ : ℚ) (coefficients : List complex_t) (n_coeffs : ℕ) :
    Except Fault PyramidLevel := do
  let lb := lower_bound divider_ n_coeffs
  let ub := upper_bound divider_ n_coeffs
  let s ← forRange lb ub (reduceBandStep coefficients)
    (zeros n_coeffs, zeros (n_low_pass divider_ n_coeffs), 0)
  let coeff_laplace ← forRange 0 n_coeffs (reduceDiffStep coefficients s.1) (zeros n_coeffs)
  pure (s.2.1, coeff_laplace)

/-- Body of the loop of `expand`; the state is `(*lapl, k)`. -/
def expandStep (low_pass : List complex_t) (i : ℕ) (s : List complex_t × ℕ) :
    Except Fault (List complex_t × ℕ) := do
  let c ← readAt low_pass s.2
  let lapl ← writeAt s.1 i (c.1, c.2)
  pure (lapl, s.2 + 1)

/-- The function `LaplacePyramid::expand`; the result is the new content of `*lapl`
(`low_pass` is passed by const reference). -/
def expand (divider_ : ℚ) (low_pass lapl : List complex_t) :
    Except Fault (List complex_t) := do
  let n_coeffs := toU32 lapl.length
  let lb := lower_bound divider_ n_coeffs
  let ub := upper_bound divider_ n_coeffs
  let s ← forRange lb ub (expandStep low_pass) (lapl, 0)
  pure s.1

/-- The function `LaplacePyramid::computeSignalEnergyForLevel`. The source returns
`energy * energy` for `energy = sqrt(re * re + im * im)`, which in exact
arithmetic is the sum of squares itself. -/
def computeSignalEnergyForLevel (level : PyramidLevel) (idx : ℕ) : Except Fault ℚ := do
  let signal ← readAt level.2 idx
  pure (signal.1 * signal.1 + signal.2 * signal.2)

/-- The scan of `std::max_element` after its first element: `largest` is the
position of the greatest value so far, `best` that value, `pos` the position
of the head of the remaining range. The candidate changes only on a strictly
greater value. -/
def maxElementScan : List ℚ → ℕ → ℕ → ℚ → ℕ
  | [], _, largest, _ => largest
  | x :: xs, pos, largest, best =>
    if best < x then maxElementScan xs (pos + 1) pos x
    else maxElementScan xs (pos + 1) largest best

/-- The call `std::max_element(begin, end)` as the distance from `begin`; `none` is `end`. -/
def max_element : List ℚ → Option ℕ
  | [] => none
  | x :: xs => some (maxElementScan xs 1 0 x)

/-- Body of the loop of `findMaxCoeffForChannels`; the state is `energies`. -/
def energyStep (levels_per_channel : List PyramidLevel) (j : ℕ) (i : ℕ)
    (energies : List ℚ) : Except Fault (List ℚ) := do
  let level ← readAt levels_per_channel i
  let e ← computeSignalEnergyForLevel level j
  writeAt energies i e

/-- The function `LaplacePyramid::findMaxCoeffForChannels`. -/
def findMaxCoeffForChannels (levels_per_channel : List PyramidLevel) (j : ℕ) :
    Except Fault ℕ := do
  let n_channels := toU32 levels_per_channel.length
  let energies ← forRange 0 n_channels (energyStep levels_per_channel j)
    (List.replicate n_channels 0)
  match max_element energies with
  | some it => pure (toU32 it)
  | none => .error .check_failed

/-- Body of the loop of `fuseLevelByMaxCoeff`; the state is `fused`. -/
def fuseMaxStep (levels_per_channel : List PyramidLevel) (i : ℕ)
    (fused : List complex_t) : Except Fault (List complex_t) := do
  let max_channel ← findMaxCoeffForChannels levels_per_channel i
  let level ← readAt levels_per_channel max_channel
  let max_coeff ← readAt level.2 i
  writeAt fused i (max_coeff.1, max_coeff.2)

/-- The function `LaplacePyramid::fuseLevelByMaxCoeff`. -/
def fuseLevelByMaxCoeff (levels_per_channel : List PyramidLevel) (n_coeffs : ℕ) :
    Except Fault (List complex_t) :=
  if levels_per_channel.length = 0 then .error .check_failed
  else if n_coeffs = 0 then .error .check_failed
  else forRange 0 n_coeffs (fuseMaxStep levels_per_channel) (zeros n_coeffs)

/-- The function `LaplacePyramid::averageSignal`. For an empty `signals` the
source divides by `0.0`; here that quotient is `0`, the convention of
division in `ℚ`. -/
def averageSignal (signals : List complex_t) : complex_t :=
  let acc := signals.foldl (fun (a : ℚ × ℚ) signal => (a.1 + signal.1, a.2 + signal.2)) (0, 0)
  let n_signals : ℚ := (signals.length : ℚ)
  (acc.1 / n_signals, acc.2 / n_signals)

/-- Body of the loop of `averageCoeffForChannels`; the state is `signals`. -/
def gatherStep (levels_per_channel : List PyramidLevel) (idx : ℕ) (i : ℕ)
    (signals : List complex_t) : Except Fault (List complex_t) := do
  let level ← readAt levels_per_channel i
  let c ← readAt level.1 idx
  writeAt signals i (c.1, c.2)

/-- The function `LaplacePyramid::averageCoeffForChannels`. -/
def averageCoeffForChannels (levels_per_channel : List PyramidLevel) (idx : ℕ) :
    Except Fault complex_t := do
  let n_channels := toU32 levels_per_channel.length
  let signals ← forRange 0 n_channels (gatherStep levels_per_channel idx) (zeros n_channels)
  pure (averageSignal signals)

/-- Body of the loop of `fuseLastLowPassLayer`; the state is `fused`. -/
def fuseAvgStep (levels_per_channel : List PyramidLevel) (i : ℕ)
    (fused : List complex_t) : Except Fault (List complex_t) := do
  let avg ← averageCoeffForChannels levels_per_channel i
  writeAt fused i (avg.1, avg.2)

/-- The function `LaplacePyramid::fuseLastLowPassLayer`. -/
def fuseLastLowPassLayer (levels_per_channel : List PyramidLevel) :
    Except Fault (List complex_t) :=
  match levels_per_channel with
  | [] => .error .check_failed
  | level0 :: _ =>
    let n_coeffs := toU32 level0.1.length
    forRange 0 n_coeffs (fuseAvgStep levels_per_channel) (zeros n_coeffs)

/-- The helper `nnz` of the unit tests: the number of coefficients with a
non-zero real or imaginary part. -/
def nnz (coeffs : List complex_t) : ℕ :=
  coeffs.foldl (fun non_zeros coeff =>
    if coeff.1 ≠ 0 ∨ coeff.2 ≠ 0 then non_zeros + 1 else non_zeros) 0

/-- The helper `createFixedCoefficients` of the unit tests. -/
def createFixedCoefficients (val : ℚ) (n_coeffs : ℕ) : List complex_t :=
  List.replicate n_coeffs (val, val)

/-- Conversion of a `uint32_t` value to `int8_t`: the low eight bits, read in
two's complement (the result fixed by C++20 and produced by the usual
compilers before it, where the standard left it to the implementation). -/
def toI8 (x : ℕ) : ℤ :=
  if x % 256 < 128 then ((x % 256 : ℕ) : ℤ) else ((x % 256 : ℕ) : ℤ) - 256

/-- The loop `for (int8_t i = start; i >= 0; --i) body` given its number of
iterations `cnt = start + 1`: `body` runs at `cnt - 1`, ..., `1`, `0`. -/
def forDown {σ : Type} (body : ℕ → σ → Except Fault σ) : ℕ → σ → Except Fault σ
  | 0, s => .ok s
  | cnt + 1, s =>
    match body cnt s with
    | .ok s' => forDown body cnt s'
    | .error e => .error e

/-- Body of the inner loop of `fuseChannels`; the state is `pyramid_level`. -/
def reduceChannelStep (divider_ : ℚ) (channels : List (List complex_t)) (n_coeffs : ℕ)
    (j : ℕ) (pyramid_level : List PyramidLevel) : Except Fault (List PyramidLevel) := do
  let channel ← readAt channels j
  let level ← reduce divider_ channel n_coeffs
  writeAt pyramid_level j level

/-- Body of the outer loop of `fuseChannels`; the state is
`(fused_levels, pyramids_per_channel)`. -/
def buildLevelStep (divider_ : ℚ) (channels : List (List complex_t)) (n_coeffs : ℕ)
    (i : ℕ) (s : List (List complex_t) × List (List PyramidLevel)) :
    Except Fault (List (List complex_t) × List (List PyramidLevel)) := do
  let n_channels := toU32 channels.length
  let pyramid_level ← forRange 0 n_channels (reduceChannelStep divider_ channels n_coeffs)
    (List.replicate n_channels ([], []))
  let fused ← fuseLevelByMaxCoeff pyramid_level n_coeffs
  let fused_levels ← writeAt s.1 i fused
  pure (fused_levels, s.2 ++ [pyramid_level])

/-- Body of the reconstruction loop of `fuseChannels`; the state is
`(fused_levels, *recon)`. After the step `recon` points at `fused_levels[i]`,
so the second component is the new content of that entry. -/
def reconStep (divider_ : ℚ) (i : ℕ) (s : List (List complex_t) × List complex_t) :
    Except Fault (List (List complex_t) × List complex_t) := do
  let lapl ← readAt s.1 i
  let out ← expand divider_ s.2 lapl
  let fused_levels ← writeAt s.1 i out
  pure (fused_levels, out)

/-- The call `back()` of a `std::vector`. On an empty vector it is undefined
behaviour, reported as `out_of_bounds`. -/
def back {α : Type} (xs : List α) : Except Fault α :=
  match xs.getLast? with
  | some x => .ok x
  | none => .error .out_of_bounds

/-- The number of iterations of the reconstruction loop
`for (int8_t i = n_levels - 1; i >= 0; --i)` of `fuseChannels`: `i + 1` for
the initial value of `i`, the `uint32_t` difference `n_levels - 1` converted
to `int8_t`, when that is not negative, and none otherwise. -/
def reconCount (n_levels : ℕ) : ℕ := (toI8 (subU32 n_levels 1) + 1).toNat

/-- The function `LaplacePyramid::fuseChannels`. -/
def fuseChannels (divider_ : ℚ) (channels : List (List complex_t)) (n_coeffs n_levels : ℕ) :
    Except Fault (List complex_t) := do
  let s ← forRange 0 n_levels (buildLevelStep divider_ channels n_coeffs)
    (List.replicate n_levels [], [])
  let last ← back s.2
  let low_pass ← fuseLastLowPassLayer last
  let r ← forDown (reconStep divider_) (reconCount n_levels) (s.1, low_pass)
  pure r.2

/-- The squared magnitude `re² + im²` of a coefficient. -/
def energy (c : complex_t) : ℚ := c.1 * c.1 + c.2 * c.2

/-- The zero-extension of `low_pass` to a full-length spectrum, read at bin `i`:
`low_pass[i - lb]` inside the band `[lb, ub)` and zero outside it. -/
def low_pass_zero_extended (low_pass : List complex_t) (lb ub i : ℕ) : complex_t :=
  if lb ≤ i ∧ i < ub then low_pass.getD (i - lb) (0, 0) else (0, 0)

/-- Channel `c` wins bin `i` with coefficient `v`: `v` is the residual
coefficient of channel `c` at bin `i`, no channel has more energy there, and
every channel before `c` has strictly less. -/
def IsFirstMax (levels : List PyramidLevel) (i c : ℕ) (v : complex_t) : Prop :=
  (∃ lvl, levels[c]? = some lvl ∧ lvl.2[i]? = some v) ∧
    ∀ c' lvl' v', levels[c']? = some lvl' → lvl'.2[i]? = some v' →
      energy v' ≤ energy v ∧ (c' < c → energy v' < energy v)

/-- The arithmetic mean over all channels of coefficient `i` of their
`low_pass` bands, taken separately over real and imaginary parts. -/
def low_pass_mean (levels : List PyramidLevel) (i : ℕ) : complex_t :=
  ((levels.map (fun l => (l.1.getD i (0, 0)).1)).sum / (levels.length : ℚ),
   (levels.map (fun l => (l.1.getD i (0, 0)).2)).sum / (levels.length : ℚ))

/-- The pyramid level returned by `reduce`, and `([], [])` where it stops
with a fault. -/
def reduceD (divider_ : ℚ) (coefficients : List complex_t) (n_coeffs : ℕ) : PyramidLevel :=
  match reduce divider_ coefficients n_coeffs with
  | .ok level => level
  | .error _ => ([], [])

/-- The reconstruction of `fuseChannels` when every entry of `fused_levels`
holds the same residual: `k` successive calls `expand(recon, residual)`,
each feeding its result to the next. -/
def reconIter (divider_ : ℚ) (residual : List complex_t) :
    ℕ → List complex_t → Except Fault (List complex_t)
  | 0, recon => .ok recon
  | k + 1, recon =>
    match expand divider_ recon residual with
    | .ok out => reconIter divider_ residual k out
    | .error e => .error e

end fusion

namespace correlation

open fusion

/-- Conversion of an `int32` flag value to `uint32_t`. -/
def castU32 (x : ℤ) : ℕ := (x % 2 ^ 32).toNat

/-- The fields of `SpatialCorrelationLowPass` that the embedded code touches.
The header declaring them is not among the sources at hand; the two bounds
are taken to be `uint32_t`, the type of `n_voxels` and of the `std::min` in
the initialiser list, and `total_n_voxels_` to be set to `n_voxels` by the
base class. -/
structure SpatialCorrelationLowPass where
  /-- the bin count `N` -/
  total_n_voxels_ : ℕ
  /-- the configured lower bound of the low-pass band -/
  low_pass_lower_bound_ : ℕ
  /-- the configured upper bound of the low-pass band -/
  low_pass_upper_bound_ : ℕ
  deriving DecidableEq, Repr

/-- The constructor `SpatialCorrelationLowPass::SpatialCorrelationLowPass`,
with the values of the two gflags as arguments. -/
def SpatialCorrelationLowPass.construct
    (FLAGS_phaser_core_spatial_low_pass_lower_bound
      FLAGS_phaser_core_spatial_low_pass_upper_bound : ℤ) (n_voxels : ℕ) :
    SpatialCorrelationLowPass where
  total_n_voxels_ := n_voxels
  low_pass_lower_bound_ := castU32 FLAGS_phaser_core_spatial_low_pass_lower_bound
  low_pass_upper_bound_ := min (castU32 FLAGS_phaser_core_spatial_low_pass_upper_bound) n_voxels

/-- The three spectra `F`, `G`, `C` handed to `complexMulSeq`. The output `C`
does not overlap the inputs; `F` and `G` are only read and may be one and the
same buffer. -/
structure Spectra where
  /-- first input spectrum -/
  F : List complex_t
  /-- second input spectrum -/
  G : List complex_t
  /-- output spectrum -/
  C : List complex_t
  deriving DecidableEq, Repr

/-- Body of the loop of `complexMulSeq`. -/
def complexMulStep (i : ℕ) (s : Spectra) : Except Fault Spectra := do
  let f ← readAt s.F i
  let g ← readAt s.G i
  let C ← writeAt s.C i (f.1 * g.1 - f.2 * (-g.2), f.1 * (-g.2) + f.2 * g.1)
  pure { s with C := C }

/-- The function `SpatialCorrelationLowPass::complexMulSeq`; the result is the
content of the three buffers after the call. -/
def SpatialCorrelationLowPass.complexMulSeq (self : SpatialCorrelationLowPass)
    (s : Spectra) : Except Fault Spectra :=
  forRange 0 self.total_n_voxels_ complexMulStep s

end correlation

namespace fusion

/-! ## Machine arithmetic -/

theorem toU32_of_lt {x : ℕ} (h : x < U32) : toU32 x = x := by
  unfold toU32; exact Nat.mod_eq_of_lt h

theorem lower_bound_lt (d : ℚ) (n : ℕ) : lower_bound d n < U32 := by
  unfold lower_bound toU32; exact Nat.mod_lt _ (by unfold U32; norm_num)

theorem subU32_of_le {a b : ℕ} (ha : a < U32) (hb : b ≤ a) : subU32 a b = a - b := by
  unfold subU32 U32 at *; omega

theorem subU32_of_lt {a b : ℕ} (hb : b < U32) (hab : a < b) :
    subU32 a b = U32 + a - b := by
  unfold subU32 U32 at *; omega

theorem upper_bound_of_le {d : ℚ} {n : ℕ} (hn : n < U32) (h : lower_bound d n ≤ n) :
    upper_bound d n = n - lower_bound d n := by
  unfold upper_bound; exact subU32_of_le hn h

theorem n_low_pass_of_le {d : ℚ} {n : ℕ} (hn : n < U32) (h : 2 * lower_bound d n ≤ n) :
    n_low_pass d n = n - 2 * lower_bound d n := by
  have h1 : lower_bound d n ≤ n := by omega
  unfold n_low_pass
  rw [upper_bound_of_le hn h1, subU32_of_le (by omega) (by omega)]
  omega

theorem n_low_pass_of_gt {d : ℚ} {n : ℕ} (hn : n < U32) (h1 : lower_bound d n ≤ n)
    (h : n < 2 * lower_bound d n) : n_low_pass d n = U32 + n - 2 * lower_bound d n := by
  unfold n_low_pass
  rw [upper_bound_of_le hn h1, subU32_of_lt (lower_bound_lt d n) (by omega)]
  omega

theorem band_le_n_low_pass {d : ℚ} {n : ℕ} (hn : n < U32) (h1 : lower_bound d n ≤ n) :
    upper_bound d n - lower_bound d n ≤ n_low_pass d n := by
  rcases Nat.lt_or_ge n (2 * lower_bound d n) with h | h
  · rw [n_low_pass_of_gt hn h1 h, upper_bound_of_le hn h1]; unfold U32; omega
  · rw [n_low_pass_of_le hn h, upper_bound_of_le hn h1]; omega

/-! ## Buffers and loops -/

theorem ok_bind {α β : Type} (x : α) (f : α → Except Fault β) :
    (Except.ok x >>= f) = f x := rfl

theorem error_bind {α β : Type} (e : Fault) (f : α → Except Fault β) :
    ((Except.error e : Except Fault α) >>= f) = .error e := rfl

theorem readAt_of_lt {α : Type} {xs : List α} {i : ℕ} (h : i < xs.length) :
    readAt xs i = .ok xs[i] := by
  simp [readAt, List.getElem?_eq_getElem h]

theorem readAt_of_some {α : Type} {xs : List α} {i : ℕ} {x : α} (h : xs[i]? = some x) :
    readAt xs i = .ok x := by
  simp [readAt, h]

theorem writeAt_of_lt {α : Type} {xs : List α} {i : ℕ} (v : α) (h : i < xs.length) :
    writeAt xs i v = .ok (xs.set i v) := by
  simp [writeAt, h]

theorem forLoop_inv {σ : Type} (body : ℕ → σ → Except Fault σ) (P : ℕ → σ → Prop) :
    ∀ (cnt i : ℕ) (s : σ), P i s →
      (∀ j t, i ≤ j → j < i + cnt → P j t → ∃ t', body j t = .ok t' ∧ P (j + 1) t') →
      ∃ s', forLoop body cnt i s = .ok s' ∧ P (i + cnt) s' := by
  intro cnt
  induction cnt with
  | zero => intro i s h0 _; exact ⟨s, rfl, by simpa using h0⟩
  | succ c ih =>
    intro i s h0 hstep
    obtain ⟨t, ht, hP⟩ := hstep i s (Nat.le_refl i) (by omega) h0
    obtain ⟨s', hs', hP'⟩ := ih (i + 1) t hP
      (fun j u hj1 hj2 hu => hstep j u (by omega) (by omega) hu)
    refine ⟨s', ?_, ?_⟩
    · simp [forLoop, ht, hs']
    · have : i + (c + 1) = i + 1 + c := by omega
      rw [this]; exact hP'

theorem forRange_inv {σ : Type} (body : ℕ → σ → Except Fault σ) (P : ℕ → σ → Prop)
    (lo hi : ℕ) (s : σ) (hle : lo ≤ hi) (h0 : P lo s)
    (hstep : ∀ j t, lo ≤ j → j < hi → P j t → ∃ t', body j t = .ok t' ∧ P (j + 1) t') :
    ∃ s', forRange lo hi body s = .ok s' ∧ P hi s' := by
  obtain ⟨s', hs', hP⟩ := forLoop_inv body P (hi - lo) lo s h0
    (fun j t hj1 hj2 ht => hstep j t hj1 (by omega) ht)
  refine ⟨s', hs', ?_⟩
  have : lo + (hi - lo) = hi := by omega
  rwa [this] at hP

theorem forRange_of_le {σ : Type} (body : ℕ → σ → Except Fault σ) {lo hi : ℕ} (s : σ)
    (h : hi ≤ lo) : forRange lo hi body s = .ok s := by
  have : hi - lo = 0 := by omega
  simp [forRange, this, forLoop]

theorem zeros_getElem? (n i : ℕ) : (zeros n)[i]? = if i < n then some (0, 0) else none := by
  simp [zeros, List.getElem?_replicate]

theorem zeros_length (n : ℕ) : (zeros n).length = n := by simp [zeros]

/-- A loop that assigns one entry of a buffer per iteration: if iteration `i`
stores at index `i` a value related to `i` by `R`, the loop returns a buffer
of the same length whose entry `i` satisfies `R i`. -/
theorem forRange_fill {α : Type} (step : ℕ → List α → Except Fault (List α))
    (R : ℕ → α → Prop) (m : ℕ) (init : List α) (hinit : init.length = m)
    (hstep : ∀ i xs, i < m → xs.length = m → ∃ v, step i xs = .ok (xs.set i v) ∧ R i v) :
    ∃ out, forRange 0 m step init = .ok out ∧ out.length = m ∧
      ∀ i, i < m → ∃ v, out[i]? = some v ∧ R i v := by
  obtain ⟨out, hout, h1, h2⟩ := forRange_inv step
    (fun i xs => xs.length = m ∧ ∀ k, k < i → ∃ v, xs[k]? = some v ∧ R k v)
    0 m init (Nat.zero_le m) ⟨hinit, fun k hk => absurd hk (Nat.not_lt_zero k)⟩
    (by
      rintro i xs _ hi ⟨h1, h2⟩
      obtain ⟨v, hv, hR⟩ := hstep i xs hi h1
      refine ⟨xs.set i v, hv, by simp [h1], ?_⟩
      intro k hk
      by_cases hik : i = k
      · subst hik
        exact ⟨v, by simp [List.getElem?_set, show i < xs.length by omega], hR⟩
      · obtain ⟨w, hw, hRw⟩ := h2 k (by omega)
        exact ⟨w, by simp [List.getElem?_set, hik, hw], hRw⟩)
  exact ⟨out, hout, h1, h2⟩

/-- The functional form of `forRange_fill`. -/
theorem forRange_fill_eq {α : Type} (step : ℕ → List α → Except Fault (List α))
    (g : ℕ → α) (m : ℕ) (init : List α) (hinit : init.length = m)
    (hstep : ∀ i xs, i < m → xs.length = m → step i xs = .ok (xs.set i (g i))) :
    forRange 0 m step init = .ok ((List.range m).map g) := by
  obtain ⟨out, hout, h1, h2⟩ := forRange_fill step (fun i v => v = g i) m init hinit
    (fun i xs hi hx => ⟨g i, hstep i xs hi hx, rfl⟩)
  rw [hout]
  congr 1
  apply List.ext_getElem?
  intro i
  by_cases hi : i < m
  · obtain ⟨v, hv, rfl⟩ := h2 i hi
    simp [hv, List.getElem?_range hi]
  · rw [List.getElem?_eq_none (by omega), List.getElem?_eq_none (by simp; omega)]

/-! ## `reduce` -/

theorem reduce_band (coeffs : List complex_t) (n nlp lb ub : ℕ) (hub : ub ≤ n)
    (hlen : n ≤ coeffs.length) (hnlp : ub - lb ≤ nlp) :
    ∃ s, forRange lb ub (reduceBandStep coeffs) (zeros n, zeros nlp, 0) = .ok s ∧
      s.1.length = n ∧ s.2.1.length = nlp ∧
      (∀ j, s.1[j]? = if lb ≤ j ∧ j < ub then coeffs[j]? else (zeros n)[j]?) ∧
      (∀ j, s.2.1[j]? = if j < ub - lb then coeffs[lb + j]? else (zeros nlp)[j]?) := by
  rcases Nat.lt_or_ge ub lb with hlt | hle
  · refine ⟨_, forRange_of_le _ _ (Nat.le_of_lt hlt), zeros_length n, zeros_length nlp, ?_, ?_⟩
    · intro j
      have : ¬ (lb ≤ j ∧ j < ub) := by omega
      simp [this]
    · intro j
      have : ¬ (j < ub - lb) := by omega
      simp [this]
  · obtain ⟨s, hs, h1, h2, _, h4, h5⟩ := forRange_inv (reduceBandStep coeffs)
      (fun i s => s.1.length = n ∧ s.2.1.length = nlp ∧ s.2.2 = i - lb ∧
        (∀ j, s.1[j]? = if lb ≤ j ∧ j < i then coeffs[j]? else (zeros n)[j]?) ∧
        (∀ j, s.2.1[j]? = if j < i - lb then coeffs[lb + j]? else (zeros nlp)[j]?))
      lb ub (zeros n, zeros nlp, 0) hle
      (by
        refine ⟨zeros_length n, zeros_length nlp, by simp, ?_, ?_⟩
        · intro j
          have : ¬ (lb ≤ j ∧ j < lb) := by omega
          simp [this]
        · intro j; simp)
      (by
        rintro i ⟨full, low, k⟩ hi1 hi2 ⟨h1, h2, h3, h4, h5⟩
        simp only at h1 h2 h3 h4 h5
        have hci : i < coeffs.length := by omega
        have hk : k < low.length := by omega
        refine ⟨(full.set i coeffs[i], low.set k coeffs[i], k + 1), ?_, ?_⟩
        · simp [reduceBandStep, readAt_of_lt hci, writeAt_of_lt _ (show i < full.length by omega),
            writeAt_of_lt _ hk, bind, Except.bind, pure, Except.pure]
        · refine ⟨by simp [h1], by simp [h2], by simp only; omega, ?_, ?_⟩
          · intro j
            simp only [List.getElem?_set, h4 j]
            by_cases hij : i = j
            · subst hij
              have : i < full.length := by omega
              simp [this, hi1, List.getElem?_eq_getElem hci]
            · have e : (lb ≤ j ∧ j < i + 1) ↔ (lb ≤ j ∧ j < i) := by omega
              simp [hij, e]
          · intro j
            simp only [List.getElem?_set, h5 j]
            by_cases hkj : k = j
            · subst hkj
              have e : lb + k = i := by omega
              have : k < i + 1 - lb := by omega
              simp [hk, this, e, List.getElem?_eq_getElem hci]
            · have e : (j < i + 1 - lb) ↔ (j < i - lb) := by omega
              simp [hkj, e])
    exact ⟨s, hs, h1, h2, h4, h5⟩

theorem reduce_diff (coeffs full : List complex_t) (n : ℕ) (hfull : full.length = n)
    (hlen : n ≤ coeffs.length) :
    ∃ res, forRange 0 n (reduceDiffStep coeffs full) (zeros n) = .ok res ∧ res.length = n ∧
      ∀ j c f, j < n → coeffs[j]? = some c → full[j]? = some f →
        res[j]? = some (c.1 - f.1, c.2 - f.2) := by
  obtain ⟨res, hres, h1, h2⟩ := forRange_inv (reduceDiffStep coeffs full)
    (fun i res => res.length = n ∧ ∀ j c f, j < i → coeffs[j]? = some c → full[j]? = some f →
        res[j]? = some (c.1 - f.1, c.2 - f.2))
    0 n (zeros n) (Nat.zero_le n)
    ⟨zeros_length n, fun j c f hj => absurd hj (Nat.not_lt_zero j)⟩
    (by
      rintro i res _ hi ⟨h1, h2⟩
      have hci : i < coeffs.length := by omega
      have hfi : i < full.length := by omega
      refine ⟨res.set i (coeffs[i].1 - full[i].1, coeffs[i].2 - full[i].2), ?_, ?_, ?_⟩
      · simp [reduceDiffStep, readAt_of_lt hci, readAt_of_lt hfi,
          writeAt_of_lt _ (show i < res.length by omega), bind, Except.bind]
      · simp [h1]
      · intro j c f hj hc hf
        simp only [List.getElem?_set]
        by_cases hij : i = j
        · subst hij
          rw [List.getElem?_eq_getElem hci] at hc
          rw [List.getElem?_eq_getElem hfi] at hf
          cases hc; cases hf
          simp [show i < res.length by omega]
        · simp only [hij, if_false]
          exact h2 j c f (by omega) hc hf)
  exact ⟨res, hres, h1, fun j c f hj => h2 j c f hj⟩

/-- What `reduce` returns whenever `lower_bound ≤ n_coeffs`: the band
`[lower_bound, upper_bound)` is copied to the front of `low_pass`, whose other
entries stay zero, and is zeroed in the residual. -/
theorem reduce_ok (d : ℚ) (coeffs : List complex_t) (n : ℕ) (hn : n < U32)
    (hlen : n ≤ coeffs.length) (hlb : lower_bound d n ≤ n) :
    ∃ low res, reduce d coeffs n = .ok (low, res) ∧
      low.length = n_low_pass d n ∧ res.length = n ∧
      (∀ k, low[k]? = if k < upper_bound d n - lower_bound d n
        then coeffs[lower_bound d n + k]? else (zeros (n_low_pass d n))[k]?) ∧
      (∀ i, i < n → res[i]? =
        if lower_bound d n ≤ i ∧ i < upper_bound d n then some (0, 0) else coeffs[i]?) := by
  have hub : upper_bound d n ≤ n := by rw [upper_bound_of_le hn hlb]; omega
  obtain ⟨s, hs, hs1, hs2, hs3, hs4⟩ := reduce_band coeffs n (n_low_pass d n)
    (lower_bound d n) (upper_bound d n) hub hlen (band_le_n_low_pass hn hlb)
  obtain ⟨res, hres, hr1, hr2⟩ := reduce_diff coeffs s.1 n hs1 hlen
  refine ⟨s.2.1, res, ?_, hs2, hr1, hs4, ?_⟩
  · simp [reduce, hs, hres, bind, Except.bind, pure, Except.pure]
  · intro i hi
    have hci : i < coeffs.length := by omega
    have hc := List.getElem?_eq_getElem hci
    by_cases hb : lower_bound d n ≤ i ∧ i < upper_bound d n
    · have hf : s.1[i]? = some coeffs[i] := by rw [hs3 i, if_pos hb, hc]
      rw [hr2 i _ _ hi hc hf, if_pos hb]; simp
    · have hf : s.1[i]? = some (0, 0) := by rw [hs3 i, if_neg hb, zeros_getElem?, if_pos hi]
      rw [hr2 i _ _ hi hc hf, if_neg hb, hc]; simp

/-! ## `expand` -/

/-- What `expand` leaves in `*lapl` whenever `lower_bound ≤ n_coeffs` and
`low_pass` covers the band. -/
theorem expand_ok (d : ℚ) (low lapl : List complex_t) (hn : lapl.length < U32)
    (hlb : lower_bound d lapl.length ≤ lapl.length)
    (hlow : upper_bound d lapl.length - lower_bound d lapl.length ≤ low.length) :
    ∃ out, expand d low lapl = .ok out ∧ out.length = lapl.length ∧
      ∀ i, out[i]? =
        if lower_bound d lapl.length ≤ i ∧ i < upper_bound d lapl.length
        then low[i - lower_bound d lapl.length]? else lapl[i]? := by
  have hub : upper_bound d lapl.length ≤ lapl.length := by
    rw [upper_bound_of_le hn hlb]; omega
  generalize hlbv : lower_bound d lapl.length = lb at *
  generalize hubv : upper_bound d lapl.length = ub at *
  have hex : expand d low lapl =
      (forRange lb ub (expandStep low) (lapl, 0)).bind (fun s => .ok s.1) := by
    simp [expand, toU32_of_lt hn, hlbv, hubv, bind, pure, Except.pure]
  rcases Nat.lt_or_ge ub lb with hlt | hle
  · refine ⟨lapl, ?_, rfl, ?_⟩
    · rw [hex, forRange_of_le _ _ (Nat.le_of_lt hlt)]; rfl
    · intro i
      have : ¬ (lb ≤ i ∧ i < ub) := by omega
      simp [this]
  · obtain ⟨s, hs, h1, _, h3⟩ := forRange_inv (expandStep low)
      (fun i s => s.1.length = lapl.length ∧ s.2 = i - lb ∧
        ∀ j, s.1[j]? = if lb ≤ j ∧ j < i then low[j - lb]? else lapl[j]?)
      lb ub (lapl, 0) hle
      (by
        refine ⟨rfl, by simp, ?_⟩
        intro j
        have : ¬ (lb ≤ j ∧ j < lb) := by omega
        simp [this])
      (by
        rintro i ⟨l, k⟩ hi1 hi2 ⟨h1, h2, h3⟩
        simp only at h1 h2 h3
        have hk : k < low.length := by omega
        have hil : i < l.length := by omega
        refine ⟨(l.set i low[k], k + 1), ?_, ?_⟩
        · simp [expandStep, readAt_of_lt hk, writeAt_of_lt _ hil, bind, Except.bind,
            pure, Except.pure]
        · refine ⟨by simp [h1], by simp only; omega, ?_⟩
          intro j
          simp only [List.getElem?_set, h3 j]
          by_cases hij : i = j
          · subst hij
            have e : i - lb = k := by omega
            simp [hil, hi1, e, List.getElem?_eq_getElem hk]
          · have e : (lb ≤ j ∧ j < i + 1) ↔ (lb ≤ j ∧ j < i) := by omega
            simp [hij, e])
    refine ⟨s.1, ?_, h1, h3⟩
    rw [hex, hs]; rfl

/-! ## The rounded quotient -/

theorem round_of_nonneg {x : ℚ} (h : 0 ≤ x) : round x = ⌊x + 1 / 2⌋ := by
  unfold round; rw [if_pos h]; rfl

theorem round_nonneg {x : ℚ} (h : 0 ≤ x) : 0 ≤ round x := by
  rw [round_of_nonneg h, Int.le_floor]
  have : (0 : ℚ) ≤ x + 1 / 2 := by linarith
  simpa using this

theorem round_quotient_le {d : ℚ} (n : ℕ) (hd : 1 ≤ d) : round ((n : ℚ) / d) ≤ n := by
  have hq0 : (0 : ℚ) ≤ (n : ℚ) / d := div_nonneg (Nat.cast_nonneg n) (by linarith)
  have hq : (n : ℚ) / d ≤ n := div_le_self (Nat.cast_nonneg n) hd
  rw [round_of_nonneg hq0]
  have : ⌊(n : ℚ) / d + 1 / 2⌋ < (n : ℤ) + 1 := by
    rw [Int.floor_lt]; push_cast; linarith
  omega

theorem lower_bound_eq_round {d : ℚ} {n : ℕ} (hn : n < U32) (hd : 1 ≤ d) :
    (lower_bound d n : ℤ) = round ((n : ℚ) / d) := by
  have h0 : 0 ≤ round ((n : ℚ) / d) :=
    round_nonneg (div_nonneg (Nat.cast_nonneg n) (by linarith))
  have h1 := round_quotient_le n hd
  have h2 : (round ((n : ℚ) / d)).toNat < U32 := by omega
  unfold lower_bound
  rw [toU32_of_lt h2]
  exact Int.toNat_of_nonneg h0

theorem lower_bound_le {d : ℚ} {n : ℕ} (hn : n < U32) (hd : 1 ≤ d) : lower_bound d n ≤ n := by
  have h := lower_bound_eq_round hn hd
  have h1 := round_quotient_le n hd
  omega

theorem round_eq_of_bounds {x : ℚ} {z : ℤ} (h0 : 0 ≤ x) (h1 : (z : ℚ) ≤ x + 1 / 2)
    (h2 : x + 1 / 2 < z + 1) : round x = z := by
  rw [round_of_nonneg h0, Int.floor_eq_iff]; exact ⟨h1, h2⟩

theorem lower_bound_eq_of_bounds {d : ℚ} {n z : ℕ} (hz : z < U32)
    (h0 : 0 ≤ (n : ℚ) / d) (h1 : (z : ℚ) ≤ (n : ℚ) / d + 1 / 2)
    (h2 : (n : ℚ) / d + 1 / 2 < z + 1) : lower_bound d n = z := by
  have h : round ((n : ℚ) / d) = (z : ℤ) := round_eq_of_bounds h0 (by simpa using h1)
    (by simpa using h2)
  unfold lower_bound
  rw [h, Int.toNat_ofNat, toU32_of_lt hz]

/-- A divider with `2 * round(n / divider) ≤ n` gives `2 * lower_bound ≤ n`. -/
theorem two_lower_bound_le {d : ℚ} {n : ℕ} (hn : n < U32)
    (h : 2 * round ((n : ℚ) / d) ≤ n) : 2 * lower_bound d n ≤ n := by
  unfold lower_bound toU32
  generalize round ((n : ℚ) / d) = r at h
  unfold U32 at *
  omega

theorem round_8_div_4 : round (((8 : ℕ) : ℚ) / 4) = 2 :=
  round_eq_of_bounds (by norm_num) (by norm_num) (by norm_num)

theorem lower_bound_4_8 : lower_bound 4 8 = 2 :=
  lower_bound_eq_of_bounds (by unfold U32; norm_num) (by norm_num) (by norm_num) (by norm_num)

theorem lower_bound_2_3 : lower_bound 2 3 = 2 :=
  lower_bound_eq_of_bounds (by unfold U32; norm_num) (by norm_num) (by norm_num) (by norm_num)

theorem round_3_div_2 : round ((3 : ℚ) / 2) = 2 :=
  round_eq_of_bounds (by norm_num) (by norm_num) (by norm_num)

/-! ## `std::max_element` -/

theorem maxElementScan_spec : ∀ (xs pre : List ℚ) (largest : ℕ) (best : ℚ),
    pre[largest]? = some best →
    (∀ k w, pre[k]? = some w → w ≤ best ∧ (k < largest → w < best)) →
    ∃ v, (pre ++ xs)[maxElementScan xs pre.length largest best]? = some v ∧
      ∀ k w, (pre ++ xs)[k]? = some w →
        w ≤ v ∧ (k < maxElementScan xs pre.length largest best → w < v) := by
  intro xs
  induction xs with
  | nil =>
    intro pre largest best h1 h2
    simp only [maxElementScan, List.append_nil]
    exact ⟨best, h1, h2⟩
  | cons x rest ih =>
    intro pre largest best h1 h2
    have hl : largest < pre.length := by
      by_contra hc
      rw [List.getElem?_eq_none (by omega)] at h1
      cases h1
    have happ : pre ++ x :: rest = (pre ++ [x]) ++ rest := by simp
    have hlen : (pre ++ [x]).length = pre.length + 1 := by simp
    have hx : (pre ++ [x])[pre.length]? = some x := by simp
    have hpre : ∀ k, k < pre.length → (pre ++ [x])[k]? = pre[k]? :=
      fun k hk => List.getElem?_append_left hk
    have hcase : ∀ k w, (pre ++ [x])[k]? = some w →
        (k < pre.length ∧ pre[k]? = some w) ∨ (k = pre.length ∧ w = x) := by
      intro k w hkw
      rcases Nat.lt_trichotomy k pre.length with hk | hk | hk
      · left; rw [hpre k hk] at hkw; exact ⟨hk, hkw⟩
      · right; subst hk; rw [hx] at hkw; cases hkw; exact ⟨rfl, rfl⟩
      · rw [List.getElem?_eq_none (by rw [hlen]; omega)] at hkw; cases hkw
    unfold maxElementScan
    by_cases hb : best < x
    · rw [if_pos hb, happ, ← hlen]
      apply ih (pre ++ [x]) pre.length x hx
      intro k w hkw
      rcases hcase k w hkw with ⟨hk, hw⟩ | ⟨hk, hw⟩
      · have := (h2 k w hw).1
        exact ⟨le_of_lt (lt_of_le_of_lt this hb), fun _ => lt_of_le_of_lt this hb⟩
      · subst hw; exact ⟨le_refl _, fun h => absurd h (by omega)⟩
    · rw [if_neg hb, happ, ← hlen]
      apply ih (pre ++ [x]) largest best (by rw [hpre largest hl]; exact h1)
      intro k w hkw
      rcases hcase k w hkw with ⟨_, hw⟩ | ⟨hk, hw⟩
      · exact h2 k w hw
      · subst hw; exact ⟨not_lt.mp hb, fun h => absurd h (by omega)⟩

/-- On a non-empty range `std::max_element` returns the first position of the
greatest value. -/
theorem max_element_spec (xs : List ℚ) (hne : xs ≠ []) :
    ∃ idx v, max_element xs = some idx ∧ xs[idx]? = some v ∧
      ∀ k w, xs[k]? = some w → w ≤ v ∧ (k < idx → w < v) := by
  cases xs with
  | nil => exact absurd rfl hne
  | cons x rest =>
    obtain ⟨v, hv, hmax⟩ := maxElementScan_spec rest [x] 0 x (by simp)
      (by
        intro k w hkw
        cases k with
        | zero => simp at hkw; subst hkw; exact ⟨le_refl _, fun h => absurd h (by omega)⟩
        | succ k => simp at hkw)
    exact ⟨_, v, rfl, hv, hmax⟩

/-! ## Winner-take-all fusion -/

theorem findMaxCoeffForChannels_spec (levels : List PyramidLevel) (j : ℕ)
    (hne : levels ≠ []) (hm : levels.length < U32)
    (hres : ∀ lvl ∈ levels, j < lvl.2.length) :
    ∃ c v, findMaxCoeffForChannels levels j = .ok c ∧ IsFirstMax levels j c v := by
  have hm0 : 0 < levels.length := List.length_pos.mpr hne
  obtain ⟨es, hes, hlen, hR⟩ := forRange_fill (energyStep levels j)
    (fun c e => ∃ lvl v, levels[c]? = some lvl ∧ lvl.2[j]? = some v ∧ e = energy v)
    levels.length (List.replicate levels.length 0) (by simp)
    (by
      intro c xs hc hxs
      have hl := List.getElem?_eq_getElem hc
      have hj : j < (levels[c]).2.length := hres _ (List.getElem_mem hc)
      refine ⟨energy (levels[c]).2[j], ?_, levels[c], (levels[c]).2[j], hl,
        List.getElem?_eq_getElem hj, rfl⟩
      simp [energyStep, readAt_of_lt hc, computeSignalEnergyForLevel, readAt_of_lt hj,
        writeAt_of_lt _ (show c < xs.length by omega), bind, Except.bind, pure, Except.pure,
        energy])
  have hes_ne : es ≠ [] := by
    intro h; rw [h] at hlen; simp at hlen; omega
  obtain ⟨idx, ve, hidx, hve, hmax⟩ := max_element_spec es hes_ne
  have hidx_lt : idx < levels.length := by
    by_contra hc
    rw [List.getElem?_eq_none (by omega)] at hve
    cases hve
  obtain ⟨w, hw, lvl, v, hlvl, hv, hwv⟩ := hR idx hidx_lt
  rw [hve] at hw; cases hw
  refine ⟨idx, v, ?_, ⟨lvl, hlvl, hv⟩, ?_⟩
  · simp [findMaxCoeffForChannels, toU32_of_lt hm, hes, hidx, bind, Except.bind, pure,
      Except.pure, toU32_of_lt (lt_trans hidx_lt hm)]
  · intro c' lvl' v' hl' hv'
    have hc' : c' < levels.length := by
      by_contra hc
      rw [List.getElem?_eq_none (by omega)] at hl'
      cases hl'
    obtain ⟨w', hw', lvl2, v2, hl2, hv2, hwv2⟩ := hR c' hc'
    rw [hl'] at hl2; cases hl2
    rw [hv'] at hv2; cases hv2
    have := hmax c' w' hw'
    rw [hwv2, hwv] at this
    exact this

theorem fuseLevelByMaxCoeff_spec (levels : List PyramidLevel) (n : ℕ)
    (hne : levels ≠ []) (hm : levels.length < U32) (hn : 0 < n)
    (hres : ∀ lvl ∈ levels, n ≤ lvl.2.length) :
    ∃ fused, fuseLevelByMaxCoeff levels n = .ok fused ∧ fused.length = n ∧
      ∀ i, i < n → ∃ v, fused[i]? = some v ∧ ∃ c, IsFirstMax levels i c v := by
  have hm0 : levels.length ≠ 0 := fun h => hne (List.length_eq_zero.mp h)
  have hn0 : n ≠ 0 := by omega
  have hfuse : fuseLevelByMaxCoeff levels n =
      forRange 0 n (fuseMaxStep levels) (zeros n) := by
    simp [fuseLevelByMaxCoeff, hm0, hn0]
  rw [hfuse]
  apply forRange_fill (fuseMaxStep levels) (fun i v => ∃ c, IsFirstMax levels i c v) n
    (zeros n) (zeros_length n)
  intro i xs hi hxs
  obtain ⟨c, v, hc, hfm⟩ := findMaxCoeffForChannels_spec levels i hne hm
    (fun lvl hl => lt_of_lt_of_le hi (hres lvl hl))
  obtain ⟨lvl, hlvl, hv⟩ := hfm.1
  refine ⟨v, ?_, c, hfm⟩
  simp [fuseMaxStep, hc, readAt_of_some hlvl, readAt_of_some hv,
    writeAt_of_lt _ (show i < xs.length by omega), bind, Except.bind]

/-! ## Averaging of the last low-pass layer -/

theorem averageSignal_foldl (xs : List complex_t) (a : ℚ × ℚ) :
    xs.foldl (fun (a : ℚ × ℚ) signal => (a.1 + signal.1, a.2 + signal.2)) a =
      (a.1 + (xs.map Prod.fst).sum, a.2 + (xs.map Prod.snd).sum) := by
  induction xs generalizing a with
  | nil => simp
  | cons x rest ih => simp [ih, add_assoc]

theorem averageSignal_eq (signals : List complex_t) :
    averageSignal signals =
      ((signals.map Prod.fst).sum / (signals.length : ℚ),
       (signals.map Prod.snd).sum / (signals.length : ℚ)) := by
  simp [averageSignal, averageSignal_foldl]

theorem averageCoeffForChannels_spec (levels : List PyramidLevel) (idx : ℕ)
    (hm : levels.length < U32) (hlow : ∀ l ∈ levels, idx < l.1.length) :
    averageCoeffForChannels levels idx = .ok (low_pass_mean levels idx) := by
  have hfill := forRange_fill_eq (gatherStep levels idx)
    (fun c => (levels.getD c ([], [])).1.getD idx (0, 0)) levels.length
    (zeros levels.length) (zeros_length _)
    (by
      intro c xs hc hxs
      have hj : idx < (levels[c]).1.length := hlow _ (List.getElem_mem hc)
      simp [gatherStep, readAt_of_lt hc, readAt_of_lt hj,
        writeAt_of_lt _ (show c < xs.length by omega), bind, Except.bind,
        List.getD_eq_getElem?_getD, List.getElem?_eq_getElem hc, List.getElem?_eq_getElem hj])
  have hmap : (List.range levels.length).map
      (fun c => (levels.getD c ([], [])).1.getD idx (0, 0)) =
      levels.map (fun l => l.1.getD idx (0, 0)) := by
    apply List.ext_getElem?
    intro c
    by_cases hc : c < levels.length
    · simp [List.getElem?_range hc, List.getElem?_eq_getElem hc, List.getD_eq_getElem?_getD]
    · rw [List.getElem?_eq_none (by simp; omega), List.getElem?_eq_none (by simp; omega)]
  rw [hmap] at hfill
  unfold averageCoeffForChannels
  rw [toU32_of_lt hm]
  simp only [bind, Except.bind, hfill, pure, Except.pure, averageSignal_eq, low_pass_mean,
    List.map_map, Function.comp_def, List.length_map]

theorem fuseLastLowPassLayer_spec (levels : List PyramidLevel) (L : ℕ) (hne : levels ≠ [])
    (hm : levels.length < U32) (hL : L < U32) (hlow : ∀ l ∈ levels, l.1.length = L) :
    fuseLastLowPassLayer levels = .ok ((List.range L).map (low_pass_mean levels)) := by
  cases levels with
  | nil => exact absurd rfl hne
  | cons level0 rest =>
    have h0 : level0.1.length = L := hlow level0 (by simp)
    simp only [fuseLastLowPassLayer, h0, toU32_of_lt hL]
    apply forRange_fill_eq _ _ _ _ (zeros_length L)
    intro i xs hi hxs
    have := averageCoeffForChannels_spec (level0 :: rest) i hm
      (fun l hl => by rw [hlow l hl]; exact hi)
    simp [fuseAvgStep, this, writeAt_of_lt _ (show i < xs.length by omega), bind, Except.bind]

/-! ## Evaluation at the parameters of the unit tests -/

theorem upper_bound_4_8 : upper_bound 4 8 = 6 := by
  rw [upper_bound_of_le (by decide) (by rw [lower_bound_4_8]; decide), lower_bound_4_8]

theorem n_low_pass_4_8 : n_low_pass 4 8 = 4 := by
  rw [n_low_pass_of_le (by decide) (by rw [lower_bound_4_8]; decide), lower_bound_4_8]

/-- The pyramid level of a constant channel for `divider = 4`, `n = 8`. -/
theorem reduce_4_fixed_8 (v : ℚ) :
    reduce 4 (createFixedCoefficients v 8) 8 =
      .ok ([(v, v), (v, v), (v, v), (v, v)],
           [(v, v), (v, v), (0, 0), (0, 0), (0, 0), (0, 0), (v, v), (v, v)]) := by
  simp [reduce, lower_bound_4_8, upper_bound_4_8, n_low_pass_4_8, forRange, forLoop,
    reduceBandStep, reduceDiffStep, readAt, writeAt, createFixedCoefficients, zeros,
    bind, Except.bind, pure, Except.pure, List.replicate]

theorem lower_bound_2_2 : lower_bound 2 2 = 1 :=
  lower_bound_eq_of_bounds (by unfold U32; norm_num) (by norm_num) (by norm_num) (by norm_num)

theorem upper_bound_2_2 : upper_bound 2 2 = 1 := by
  rw [upper_bound_of_le (by decide) (by rw [lower_bound_2_2]; decide), lower_bound_2_2]

theorem n_low_pass_2_2 : n_low_pass 2 2 = 0 := by
  rw [n_low_pass_of_le (by decide) (by rw [lower_bound_2_2]), lower_bound_2_2]

/-! ## Claims about `reduce` and `expand` -/

/-- C1. Round trip of `reduce` and `expand`: for a spectrum of length `n` and a
divider with `2 * round(n / divider) ≤ n`, `reduce` returns a pair
`(low_pass, residual)` and `expand(low_pass, residual)` leaves `residual`
equal to the original spectrum, bin by bin. -/
theorem reduce_expand_round_trip (d : ℚ) (spectrum : List complex_t) (n : ℕ)
    (hlen : spectrum.length = n) (hn : n < U32)
    (hround : 2 * round ((n : ℚ) / d) ≤ n) :
    ∃ low_pass residual, reduce d spectrum n = .ok (low_pass, residual) ∧
      expand d low_pass residual = .ok spectrum := by
  have hband : 2 * lower_bound d n ≤ n := two_lower_bound_le hn hround
  have hlb : lower_bound d n ≤ n := by omega
  obtain ⟨low, res, hred, hl1, hr1, hl2, hr2⟩ :=
    reduce_ok d spectrum n hn (Nat.le_of_eq hlen.symm) hlb
  have hbl := band_le_n_low_pass hn hlb
  obtain ⟨out, hex, _, ho2⟩ := expand_ok d low res (by rw [hr1]; exact hn)
    (by rw [hr1]; exact hlb) (by rw [hr1, hl1]; exact hbl)
  refine ⟨low, res, hred, ?_⟩
  rw [hex]
  congr 1
  apply List.ext_getElem?
  intro i
  rw [ho2 i, hr1]
  have hub := upper_bound_of_le hn hlb
  by_cases hb : lower_bound d n ≤ i ∧ i < upper_bound d n
  · rw [if_pos hb, hl2, if_pos (by omega)]
    congr 1; omega
  · rw [if_neg hb]
    by_cases hi : i < n
    · rw [hr2 i hi, if_neg hb]
    · rw [List.getElem?_eq_none (by omega), List.getElem?_eq_none (by omega)]

/-- Witness of C1 at the test's `divider = 4`, `n = 8`. -/
theorem reduce_expand_round_trip_witness :
    ∃ low_pass residual,
      reduce 4 [(1, 2), (3, 4), (5, 6), (7, 8), (9, 10), (11, 12), (13, 14), (15, 16)] 8
        = .ok (low_pass, residual) ∧
      expand 4 low_pass residual
        = .ok [(1, 2), (3, 4), (5, 6), (7, 8), (9, 10), (11, 12), (13, 14), (15, 16)] :=
  reduce_expand_round_trip 4 _ 8 rfl (by decide) (by rw [round_8_div_4]; decide)

/-- C2. For a spectrum of length `n` and a divider with
`lower_bound = round(n / d) ≤ upper_bound = n - lower_bound`, the residual
returned by `reduce` has length `n`, is exactly zero in both parts at every
bin of `[lower_bound, upper_bound)`, and equals the spectrum at every other bin. -/
theorem reduce_residual_band (d : ℚ) (spectrum : List complex_t) (n : ℕ)
    (hlen : spectrum.length = n) (hn : n < U32)
    (hband : lower_bound d n ≤ n - lower_bound d n) :
    ∃ low_pass residual, reduce d spectrum n = .ok (low_pass, residual) ∧
      residual.length = n ∧
      (∀ i, lower_bound d n ≤ i → i < n - lower_bound d n → residual[i]? = some (0, 0)) ∧
      (∀ i, i < n → ¬ (lower_bound d n ≤ i ∧ i < n - lower_bound d n) →
        residual[i]? = spectrum[i]?) := by
  have hlb : lower_bound d n ≤ n := by omega
  obtain ⟨low, res, hred, _, hr1, _, hr2⟩ :=
    reduce_ok d spectrum n hn (Nat.le_of_eq hlen.symm) hlb
  have hub := upper_bound_of_le hn hlb
  refine ⟨low, res, hred, hr1, ?_, ?_⟩
  · intro i h1 h2
    rw [hr2 i (by omega), if_pos (by omega)]
  · intro i hi hb
    rw [hr2 i hi, if_neg (by omega)]

/-- Witness of C2 at `divider = 4`, `n = 8`. -/
theorem reduce_residual_band_witness :
    ∃ low_pass residual, reduce 4 (createFixedCoefficients 5 8) 8 = .ok (low_pass, residual) ∧
      residual.length = 8 ∧
      (∀ i, lower_bound 4 8 ≤ i → i < 8 - lower_bound 4 8 → residual[i]? = some (0, 0)) ∧
      (∀ i, i < 8 → ¬ (lower_bound 4 8 ≤ i ∧ i < 8 - lower_bound 4 8) →
        residual[i]? = (createFixedCoefficients 5 8)[i]?) :=
  reduce_residual_band 4 (createFixedCoefficients 5 8) 8 rfl (by decide)
    (by rw [lower_bound_4_8]; decide)

/-- C3. Lossless decomposition: under the hypotheses of C2, at every bin
`i < n` the residual plus the zero-extended `low_pass` is the spectrum, and
inside the band `low_pass[k] = spectrum[lower_bound + k]`. -/
theorem reduce_lossless (d : ℚ) (spectrum : List complex_t) (n : ℕ)
    (hlen : spectrum.length = n) (hn : n < U32)
    (hband : lower_bound d n ≤ n - lower_bound d n) :
    ∃ low_pass residual, reduce d spectrum n = .ok (low_pass, residual) ∧
      (∀ i, i < n → ∃ r s, residual[i]? = some r ∧ spectrum[i]? = some s ∧
        r + low_pass_zero_extended low_pass (lower_bound d n) (n - lower_bound d n) i = s) ∧
      (∀ k, k < n - lower_bound d n - lower_bound d n →
        ∃ s, low_pass[k]? = some s ∧ spectrum[lower_bound d n + k]? = some s) := by
  have hlb : lower_bound d n ≤ n := by omega
  obtain ⟨low, res, hred, _, _, hl2, hr2⟩ :=
    reduce_ok d spectrum n hn (Nat.le_of_eq hlen.symm) hlb
  have hub := upper_bound_of_le hn hlb
  have hlow : ∀ k, k < n - lower_bound d n - lower_bound d n →
      low[k]? = some spectrum[lower_bound d n + k]! := by
    intro k hk
    rw [hl2 k, if_pos (by omega)]
    have : lower_bound d n + k < spectrum.length := by omega
    simp [List.getElem?_eq_getElem this, getElem!_pos, this]
  refine ⟨low, res, hred, ?_, ?_⟩
  · intro i hi
    have hsi : i < spectrum.length := by omega
    have hs := List.getElem?_eq_getElem hsi
    by_cases hb : lower_bound d n ≤ i ∧ i < n - lower_bound d n
    · refine ⟨(0, 0), spectrum[i], ?_, hs, ?_⟩
      · rw [hr2 i hi, if_pos (by omega)]
      · have hk := hlow (i - lower_bound d n) (by omega)
        have e : lower_bound d n + (i - lower_bound d n) = i := by omega
        rw [e] at hk
        unfold low_pass_zero_extended
        rw [if_pos hb, List.getD_eq_getElem?_getD, hk]
        simp [getElem!_pos, hsi]
    · refine ⟨spectrum[i], spectrum[i], ?_, hs, ?_⟩
      · rw [hr2 i hi, if_neg (by omega), hs]
      · unfold low_pass_zero_extended
        rw [if_neg hb]; simp
  · intro k hk
    have : lower_bound d n + k < spectrum.length := by omega
    exact ⟨_, hlow k hk, by simp [List.getElem?_eq_getElem this, getElem!_pos, this]⟩

/-- Witness of C3 at `divider = 4`, `n = 8`. -/
theorem reduce_lossless_witness :
    ∃ low_pass residual, reduce 4 (createFixedCoefficients 5 8) 8 = .ok (low_pass, residual) ∧
      (∀ i, i < 8 → ∃ r s, residual[i]? = some r ∧
        (createFixedCoefficients 5 8)[i]? = some s ∧
        r + low_pass_zero_extended low_pass (lower_bound 4 8) (8 - lower_bound 4 8) i = s) ∧
      (∀ k, k < 8 - lower_bound 4 8 - lower_bound 4 8 →
        ∃ s, low_pass[k]? = some s ∧
          (createFixedCoefficients 5 8)[lower_bound 4 8 + k]? = some s) :=
  reduce_lossless 4 (createFixedCoefficients 5 8) 8 rfl (by decide)
    (by rw [lower_bound_4_8]; decide)

/-- Where the subtraction does not wrap, that is for `2 * round(n / divider) ≤ n`,
`reduce` returns a `low_pass` of length `n - 2 * round(n / divider)`. -/
theorem reduce_low_pass_length_of_le (d : ℚ) (spectrum : List complex_t) (n : ℕ)
    (hlen : spectrum.length = n) (hn : n < U32) (hd : 1 < d)
    (h : 2 * round ((n : ℚ) / d) ≤ n) :
    ∃ low_pass residual, reduce d spectrum n = .ok (low_pass, residual) ∧
      (low_pass.length : ℤ) = (n : ℤ) - 2 * round ((n : ℚ) / d) := by
  have hr := lower_bound_eq_round hn (le_of_lt hd)
  have hlb := lower_bound_le hn (le_of_lt hd)
  obtain ⟨low, res, hred, hl1, _⟩ :=
    reduce_ok d spectrum n hn (Nat.le_of_eq hlen.symm) hlb
  refine ⟨low, res, hred, ?_⟩
  rw [← hr] at h ⊢
  have h2 : 2 * lower_bound d n ≤ n := by omega
  rw [hl1, n_low_pass_of_le hn h2]; omega

/-- The length of `low_pass` at the test's `divider = 4`, `n = 8` is `4`. -/
theorem reduce_low_pass_length_4_8 :
    ∃ low_pass residual, reduce 4 (createFixedCoefficients 5 8) 8 = .ok (low_pass, residual) ∧
      (low_pass.length : ℤ) = ((8 : ℕ) : ℤ) - 2 * round (((8 : ℕ) : ℚ) / 4) :=
  reduce_low_pass_length_of_le 4 (createFixedCoefficients 5 8) 8 rfl (by decide) (by norm_num)
    (by rw [round_8_div_4]; decide)

/-- C4, failing input. With `divider = 2 > 1` and `n = 3` the rounded quotient is
`round(1.5) = 2`, so the first lines of `reduce` compute `lower_bound = 2`,
`upper_bound = 3 - 2 = 1`, and the `uint32_t` subtraction
`n_low_pass = upper_bound - lower_bound = 1 - 2`, which has no guard, wraps
around to `4294967295`. This is the number of entries `reduce` requests for
`coeff_low_pass` (a request the allocator of the real program refuses), while
`n - 2 * round(n / divider)` is `-1`: no `low_pass` of the stated length comes
out of the call. -/
theorem reduce_n_low_pass_wraps :
    (1 : ℚ) < 2 ∧ lower_bound 2 3 = 2 ∧ upper_bound 2 3 = 1 ∧
      n_low_pass 2 3 = 4294967295 ∧
      (3 : ℤ) - 2 * round ((3 : ℚ) / 2) = -1 ∧
      (n_low_pass 2 3 : ℤ) ≠ (3 : ℤ) - 2 * round ((3 : ℚ) / 2) := by
  have hn : 3 < U32 := by decide
  have hlb : lower_bound 2 3 ≤ 3 := by rw [lower_bound_2_3]; decide
  have hub : upper_bound 2 3 = 1 := by rw [upper_bound_of_le hn hlb, lower_bound_2_3]
  have hnl : n_low_pass 2 3 = 4294967295 := by
    rw [n_low_pass_of_gt hn hlb (by rw [lower_bound_2_3]; decide), lower_bound_2_3]
    rfl
  refine ⟨by norm_num, lower_bound_2_3, hub, hnl, ?_, ?_⟩
  · rw [round_3_div_2]; rfl
  · rw [round_3_div_2, hnl]; decide

theorem createFixedCoefficients_getElem? (v : ℚ) (n i : ℕ) (hi : i < n) :
    (createFixedCoefficients v n)[i]? = some (v, v) := by
  simp [createFixedCoefficients, List.getElem?_replicate, hi]

/-- The residual of a constant channel outside the band. -/
theorem reduce_fixed_outside (v d : ℚ) (n i : ℕ) (hn : n < U32)
    (hband : lower_bound d n ≤ n - lower_bound d n) (hi : i < n)
    (hout : ¬ (lower_bound d n ≤ i ∧ i < n - lower_bound d n)) :
    ∃ l : PyramidLevel, reduce d (createFixedCoefficients v n) n = .ok l ∧
      l.2.length = n ∧ l.2[i]? = some (v, v) := by
  have hlb : lower_bound d n ≤ n := by omega
  obtain ⟨low, res, hred, _, hr1, _, hr2⟩ :=
    reduce_ok d (createFixedCoefficients v n) n hn (by simp [createFixedCoefficients]) hlb
  refine ⟨(low, res), hred, hr1, ?_⟩
  have hub := upper_bound_of_le hn hlb
  show res[i]? = _
  rw [hr2 i hi, if_neg (by omega), createFixedCoefficients_getElem? v n i hi]

theorem low_pass_mean_perm {levels levels' : List PyramidLevel} (hperm : levels'.Perm levels)
    (i : ℕ) : low_pass_mean levels' i = low_pass_mean levels i := by
  unfold low_pass_mean
  rw [(hperm.map _).sum_eq, (hperm.map _).sum_eq, hperm.length_eq]

theorem isFirstMax_mem {levels : List PyramidLevel} {i c : ℕ} {v : complex_t}
    (h : IsFirstMax levels i c v) :
    ∃ l ∈ levels, l.2[i]? = some v ∧
      ∀ l' ∈ levels, ∀ v' : complex_t, l'.2[i]? = some v' → energy v' ≤ energy v := by
  obtain ⟨⟨lvl, hl, hv⟩, hmax⟩ := h
  refine ⟨lvl, List.mem_iff_getElem?.mpr ⟨c, hl⟩, hv, ?_⟩
  intro l' hl' v' hv'
  obtain ⟨c', hc'⟩ := List.mem_iff_getElem?.mp hl'
  exact (hmax c' l' v' hc' hv').1

/-! ## Counting non-zero coefficients -/

theorem nnz_foldl (xs : List complex_t) (a : ℕ) :
    xs.foldl (fun non_zeros coeff =>
      if coeff.1 ≠ 0 ∨ coeff.2 ≠ 0 then non_zeros + 1 else non_zeros) a =
      a + xs.countP (fun coeff => decide (coeff.1 ≠ 0 ∨ coeff.2 ≠ 0)) := by
  induction xs generalizing a with
  | nil => simp
  | cons x rest ih =>
    rw [List.foldl_cons, ih, List.countP_cons]
    by_cases hx : x.1 ≠ 0 ∨ x.2 ≠ 0
    · simp only [hx, if_true, decide_True]; omega
    · simp only [hx, if_false, decide_False]; simp

theorem nnz_eq_countP (xs : List complex_t) :
    nnz xs = xs.countP (fun coeff => decide (coeff.1 ≠ 0 ∨ coeff.2 ≠ 0)) := by
  unfold nnz; rw [nnz_foldl]; simp

theorem nnz_lt_length_of_zero (xs : List complex_t) (i : ℕ) (h : xs[i]? = some (0, 0)) :
    nnz xs < xs.length := by
  rw [nnz_eq_countP]
  apply lt_of_le_of_ne (List.countP_le_length _)
  intro hc
  rw [List.countP_eq_length] at hc
  have := hc (0, 0) (List.mem_iff_getElem?.mpr ⟨i, h⟩)
  simp at this

theorem nnz_eq_length_of_nonzero (xs : List complex_t)
    (h : ∀ c ∈ xs, c.1 ≠ 0 ∨ c.2 ≠ 0) : nnz xs = xs.length := by
  rw [nnz_eq_countP, List.countP_eq_length]
  intro c hc
  simpa using h c hc

/-! ## Claims about the fusion operations -/

/-- C5. Winner-take-all selection: for a non-empty list of pyramid levels whose
residuals have at least `n` entries and every bin `i < n`,
`fuseLevelByMaxCoeff` returns a sequence of length `n` whose entry `i` is the
residual coefficient at bin `i` of one channel `c`, where no channel has a
larger energy `re² + im²` at that bin and every channel before `c` has a
strictly smaller one. -/
theorem fuseLevelByMaxCoeff_winner (levels : List PyramidLevel) (n i : ℕ)
    (hne : levels ≠ []) (hm : levels.length < U32)
    (hres : ∀ lvl ∈ levels, n ≤ lvl.2.length) (hi : i < n) :
    ∃ fused, fuseLevelByMaxCoeff levels n = .ok fused ∧ fused.length = n ∧
      ∃ (c : ℕ) (lvl : PyramidLevel) (v : complex_t), levels[c]? = some lvl ∧ lvl.2[i]? = some v ∧ fused[i]? = some v ∧
        ∀ (c' : ℕ) (lvl' : PyramidLevel) (v' : complex_t), levels[c']? = some lvl' → lvl'.2[i]? = some v' →
          energy v' ≤ energy v ∧ (c' < c → energy v' < energy v) := by
  obtain ⟨fused, hf, hlen, hall⟩ := fuseLevelByMaxCoeff_spec levels n hne hm (by omega) hres
  obtain ⟨v, hv, c, ⟨lvl, hl, hlv⟩, hmax⟩ := hall i hi
  exact ⟨fused, hf, hlen, c, lvl, v, hl, hlv, hv, hmax⟩

/-- Witness of C5: two channels of equal energy at the single bin. -/
theorem fuseLevelByMaxCoeff_winner_witness :
    ∃ fused, fuseLevelByMaxCoeff [([], [(1, 0)]), ([], [(0, 1)])] 1 = .ok fused ∧
      fused.length = 1 ∧
      ∃ (c : ℕ) (lvl : PyramidLevel) (v : complex_t), [(([] : List complex_t), [((1 : ℚ), (0 : ℚ))]), ([], [(0, 1)])][c]? = some lvl ∧
        lvl.2[0]? = some v ∧ fused[0]? = some v ∧
        ∀ (c' : ℕ) (lvl' : PyramidLevel) (v' : complex_t),
          [(([] : List complex_t), [((1 : ℚ), (0 : ℚ))]), ([], [(0, 1)])][c']? = some lvl' →
          lvl'.2[0]? = some v' → energy v' ≤ energy v ∧ (c' < c → energy v' < energy v) :=
  fuseLevelByMaxCoeff_winner [([], [(1, 0)]), ([], [(0, 1)])] 1 0 (by simp) (by decide)
    (by simp) (by decide)

/-- C6. Low-pass averaging: for a non-empty list of `m` pyramid levels whose
`low_pass` bands all have length `L`, `fuseLastLowPassLayer` returns a sequence
of length `L` whose entry `i` is `((Σ re) / m, (Σ im) / m)`, the sums running
over the channels; for the constant channels `5` and `15` reduced with `n = 8`,
`divider = 4` all four entries are `(10, 10)`. -/
theorem fuseLastLowPassLayer_mean (levels : List PyramidLevel) (L : ℕ) (hne : levels ≠ [])
    (hm : levels.length < U32) (hL : L < U32) (hlow : ∀ l ∈ levels, l.1.length = L) :
    (∃ fused, fuseLastLowPassLayer levels = .ok fused ∧ fused.length = L ∧
      ∀ i, i < L → fused[i]? = some
        ((levels.map (fun l => (l.1.getD i (0, 0)).1)).sum / (levels.length : ℚ),
         (levels.map (fun l => (l.1.getD i (0, 0)).2)).sum / (levels.length : ℚ))) ∧
    (∃ a b, reduce 4 (createFixedCoefficients 5 8) 8 = .ok a ∧
      reduce 4 (createFixedCoefficients 15 8) 8 = .ok b ∧
      fuseLastLowPassLayer [a, b] = .ok [(10, 10), (10, 10), (10, 10), (10, 10)]) := by
  constructor
  · refine ⟨_, fuseLastLowPassLayer_spec levels L hne hm hL hlow, by simp, ?_⟩
    intro i hi
    simp [List.getElem?_range hi, low_pass_mean]
  · refine ⟨_, _, reduce_4_fixed_8 5, reduce_4_fixed_8 15, ?_⟩
    rw [fuseLastLowPassLayer_spec _ 4 (by simp) (by decide) (by decide) (by simp)]
    simp [List.range_succ, low_pass_mean]
    norm_num

/-- Witness of C6 at two channels with low-pass bands of length 2. -/
theorem fuseLastLowPassLayer_mean_witness :
    (∃ fused, fuseLastLowPassLayer [([(5, 1), (7, 3)], []), ([(15, 3), (1, 1)], [])] = .ok fused ∧
      fused.length = 2 ∧
      ∀ i, i < 2 → fused[i]? = some
        (([(([(5, 1), (7, 3)], []) : PyramidLevel), ([(15, 3), (1, 1)], [])].map
            (fun l => (l.1.getD i (0, 0)).1)).sum /
          (([(([(5, 1), (7, 3)], []) : PyramidLevel), ([(15, 3), (1, 1)], [])].length : ℕ) : ℚ),
         ([(([(5, 1), (7, 3)], []) : PyramidLevel), ([(15, 3), (1, 1)], [])].map
            (fun l => (l.1.getD i (0, 0)).2)).sum /
          (([(([(5, 1), (7, 3)], []) : PyramidLevel), ([(15, 3), (1, 1)], [])].length : ℕ) : ℚ))) ∧
    (∃ a b, reduce 4 (createFixedCoefficients 5 8) 8 = .ok a ∧
      reduce 4 (createFixedCoefficients 15 8) 8 = .ok b ∧
      fuseLastLowPassLayer [a, b] = .ok [(10, 10), (10, 10), (10, 10), (10, 10)]) :=
  fuseLastLowPassLayer_mean [([(5, 1), (7, 3)], []), ([(15, 3), (1, 1)], [])] 2 (by simp)
    (by decide) (by decide) (by simp)

/-- C7, counterexample. For the constants `a = -2 < b = 1` with `n = 8`,
`divider = 4`, bin `0` lies outside the band `[2, 6)` and the fused value there
is channel A's `(-2, -2)`: A has the larger energy, so the result is neither
B's residual value `(1, 1)` nor greater than A's. -/
theorem fuse_constant_channels_negative :
    ∃ (la lb : PyramidLevel) (fused : List complex_t),
      reduce 4 (createFixedCoefficients (-2) 8) 8 = .ok la ∧
      reduce 4 (createFixedCoefficients 1 8) 8 = .ok lb ∧
      fuseLevelByMaxCoeff [la, lb] 8 = .ok fused ∧
      (-2 : ℚ) < 1 ∧ ¬ (lower_bound 4 8 ≤ 0 ∧ 0 < 8 - lower_bound 4 8) ∧
      la.2[0]? = some ((-2, -2) : complex_t) ∧ lb.2[0]? = some ((1, 1) : complex_t) ∧
      fused[0]? = some ((-2, -2) : complex_t) ∧ fused[0]? ≠ lb.2[0]? := by
  refine ⟨_, _, [(-2, -2), (-2, -2), (0, 0), (0, 0), (0, 0), (0, 0), (-2, -2), (-2, -2)],
    reduce_4_fixed_8 (-2), reduce_4_fixed_8 1, ?_, by norm_num,
    by rw [lower_bound_4_8]; decide, by simp, by simp, by simp, by norm_num⟩
  norm_num [fuseLevelByMaxCoeff, forRange, forLoop, fuseMaxStep, findMaxCoeffForChannels, toU32,
    U32, energyStep, readAt, writeAt, computeSignalEnergyForLevel, max_element,
    maxElementScan, zeros, bind, Except.bind, pure, Except.pure, List.replicate]

/-- C7, amended. For constants with `-b < a < b`, every `n` and divider with
`round(n / divider) ≤ n - round(n / divider)`, and the levels of the constant
channels `a + a·i` and `b + b·i`, at every bin outside the low-pass band
`fuseLevelByMaxCoeff` returns B's residual value, which is strictly greater
than A's in both parts. -/
theorem fuse_constant_channels (a b d : ℚ) (n i : ℕ) (hab : a < b) (hab2 : -b < a)
    (hn : n < U32) (hband : lower_bound d n ≤ n - lower_bound d n) (hi : i < n)
    (hout : ¬ (lower_bound d n ≤ i ∧ i < n - lower_bound d n)) :
    ∃ (la lb : PyramidLevel) (fused : List complex_t),
      reduce d (createFixedCoefficients a n) n = .ok la ∧
      reduce d (createFixedCoefficients b n) n = .ok lb ∧
      fuseLevelByMaxCoeff [la, lb] n = .ok fused ∧
      ∃ (f ra rb : complex_t), fused[i]? = some f ∧ la.2[i]? = some ra ∧
        lb.2[i]? = some rb ∧ f = rb ∧ ra.1 < f.1 ∧ ra.2 < f.2 := by
  obtain ⟨la, hla, hla1, hla2⟩ := reduce_fixed_outside a d n i hn hband hi hout
  obtain ⟨lb, hlb, hlb1, hlb2⟩ := reduce_fixed_outside b d n i hn hband hi hout
  obtain ⟨fused, hf, _, hall⟩ := fuseLevelByMaxCoeff_spec [la, lb] n (by simp)
    (by simp [U32]) (by omega) (by simp [hla1, hlb1])
  obtain ⟨v, hv, c, ⟨lvl, hl, hlv⟩, hmax⟩ := hall i hi
  refine ⟨la, lb, fused, hla, hlb, hf, v, (a, a), (b, b), hv, hla2, hlb2, ?_⟩
  have hvb : v = (b, b) := by
    match c, hl with
    | 0, hl =>
      simp at hl; subst hl
      rw [hla2] at hlv; cases hlv
      have := (hmax 1 lb (b, b) (by simp) hlb2).1
      simp only [energy] at this
      nlinarith
    | 1, hl =>
      simp at hl; subst hl
      rw [hlb2] at hlv; cases hlv; rfl
    | c + 2, hl => simp at hl
  subst hvb
  exact ⟨rfl, hab, hab⟩

/-- Witness of C7 (amended) at the test's `a = 1`, `b = 15`, `n = 8`,
`divider = 4`, bin `7`. -/
theorem fuse_constant_channels_witness :
    ∃ (la lb : PyramidLevel) (fused : List complex_t),
      reduce 4 (createFixedCoefficients 1 8) 8 = .ok la ∧
      reduce 4 (createFixedCoefficients 15 8) 8 = .ok lb ∧
      fuseLevelByMaxCoeff [la, lb] 8 = .ok fused ∧
      ∃ (f ra rb : complex_t), fused[7]? = some f ∧ la.2[7]? = some ra ∧
        lb.2[7]? = some rb ∧ f = rb ∧ ra.1 < f.1 ∧ ra.2 < f.2 :=
  fuse_constant_channels 1 15 4 8 7 (by norm_num) (by norm_num) (by decide)
    (by rw [lower_bound_4_8]; decide) (by decide) (by rw [lower_bound_4_8]; decide)

/-- C8, counterexample. Two channels with different coefficients of equal
energy at the single bin: the fused value is that of whichever channel comes
first, so swapping the two channels changes the result. -/
theorem fuseLevelByMaxCoeff_order_matters :
    List.Perm [(([] : List complex_t), [((0 : ℚ), (1 : ℚ))]), ([], [(1, 0)])]
        [([], [(1, 0)]), ([], [(0, 1)])] ∧
      fuseLevelByMaxCoeff [([], [(1, 0)]), ([], [(0, 1)])] 1 = .ok [(1, 0)] ∧
      fuseLevelByMaxCoeff [([], [(0, 1)]), ([], [(1, 0)])] 1 = .ok [(0, 1)] ∧
      fuseLevelByMaxCoeff [([], [(0, 1)]), ([], [(1, 0)])] 1 ≠
        fuseLevelByMaxCoeff [([], [(1, 0)]), ([], [(0, 1)])] 1 := by
  have h1 : fuseLevelByMaxCoeff [([], [(1, 0)]), ([], [(0, 1)])] 1 = .ok [(1, 0)] := by
    norm_num [fuseLevelByMaxCoeff, forRange, forLoop, fuseMaxStep, findMaxCoeffForChannels,
      toU32, U32, energyStep, readAt, writeAt, computeSignalEnergyForLevel, max_element,
      maxElementScan, zeros, bind, Except.bind, pure, Except.pure, List.replicate]
  have h2 : fuseLevelByMaxCoeff [([], [(0, 1)]), ([], [(1, 0)])] 1 = .ok [(0, 1)] := by
    norm_num [fuseLevelByMaxCoeff, forRange, forLoop, fuseMaxStep, findMaxCoeffForChannels,
      toU32, U32, energyStep, readAt, writeAt, computeSignalEnergyForLevel, max_element,
      maxElementScan, zeros, bind, Except.bind, pure, Except.pure, List.replicate]
  refine ⟨List.Perm.swap _ _ _, h1, h2, ?_⟩
  rw [h1, h2]
  simp

/-- C8, amended. For a non-empty list of pyramid levels whose residuals have
at least `n > 0` entries and every permutation of it, both calls of
`fuseLevelByMaxCoeff` return `n` coefficients, and they agree at every bin
where all channels of maximal energy hold the same residual coefficient (in
particular where a single channel attains the maximum). -/
theorem fuseLevelByMaxCoeff_perm (levels levels' : List PyramidLevel) (n : ℕ)
    (hperm : levels'.Perm levels) (hne : levels ≠ []) (hm : levels.length < U32)
    (hn : 0 < n) (hres : ∀ lvl ∈ levels, n ≤ lvl.2.length) :
    ∃ fused fused', fuseLevelByMaxCoeff levels n = .ok fused ∧
      fuseLevelByMaxCoeff levels' n = .ok fused' ∧
      fused.length = n ∧ fused'.length = n ∧
      ∀ i, i < n →
        (∀ l1 ∈ levels, ∀ l2 ∈ levels, ∀ v1 v2 : complex_t,
          l1.2[i]? = some v1 → l2.2[i]? = some v2 →
          (∀ l ∈ levels, ∀ v : complex_t, l.2[i]? = some v → energy v ≤ energy v1) →
          (∀ l ∈ levels, ∀ v : complex_t, l.2[i]? = some v → energy v ≤ energy v2) →
          v1 = v2) →
        fused'[i]? = fused[i]? := by
  have hne' : levels' ≠ [] := by
    intro h; rw [h] at hperm; exact hne (List.Perm.nil_eq hperm).symm
  obtain ⟨fused, hf, hlen, hall⟩ := fuseLevelByMaxCoeff_spec levels n hne hm hn hres
  obtain ⟨fused', hf', hlen', hall'⟩ := fuseLevelByMaxCoeff_spec levels' n hne'
    (by rw [hperm.length_eq]; exact hm) hn
    (fun lvl hl => hres lvl (hperm.mem_iff.mp hl))
  refine ⟨fused, fused', hf, hf', hlen, hlen', ?_⟩
  intro i hi htie
  obtain ⟨v, hv, c, hfm⟩ := hall i hi
  obtain ⟨v', hv', c', hfm'⟩ := hall' i hi
  obtain ⟨l, hl, hlv, hmax⟩ := isFirstMax_mem hfm
  obtain ⟨l', hl', hlv', hmax'⟩ := isFirstMax_mem hfm'
  have hl'm : l' ∈ levels := hperm.mem_iff.mp hl'
  have hmax'' : ∀ l ∈ levels, ∀ w : complex_t, l.2[i]? = some w → energy w ≤ energy v' :=
    fun l0 hl0 w hw => hmax' l0 (hperm.mem_iff.mpr hl0) w hw
  rw [hv, hv', htie l' hl'm l hl v' v hlv' hlv hmax'' hmax]

/-- Witness of C8 (amended): two channels, the second one the only winner. -/
theorem fuseLevelByMaxCoeff_perm_witness :
    ∃ fused fused', fuseLevelByMaxCoeff [([], [(1, 0)]), ([], [(0, 2)])] 1 = .ok fused ∧
      fuseLevelByMaxCoeff [([], [(0, 2)]), ([], [(1, 0)])] 1 = .ok fused' ∧
      fused.length = 1 ∧ fused'.length = 1 ∧
      ∀ i, i < 1 →
        (∀ l1 ∈ [(([] : List complex_t), [((1 : ℚ), (0 : ℚ))]), ([], [(0, 2)])],
          ∀ l2 ∈ [(([] : List complex_t), [((1 : ℚ), (0 : ℚ))]), ([], [(0, 2)])],
          ∀ v1 v2 : complex_t, l1.2[i]? = some v1 → l2.2[i]? = some v2 →
          (∀ l ∈ [(([] : List complex_t), [((1 : ℚ), (0 : ℚ))]), ([], [(0, 2)])],
            ∀ v : complex_t, l.2[i]? = some v → energy v ≤ energy v1) →
          (∀ l ∈ [(([] : List complex_t), [((1 : ℚ), (0 : ℚ))]), ([], [(0, 2)])],
            ∀ v : complex_t, l.2[i]? = some v → energy v ≤ energy v2) →
          v1 = v2) →
        fused'[i]? = fused[i]? :=
  fuseLevelByMaxCoeff_perm [([], [(1, 0)]), ([], [(0, 2)])] [([], [(0, 2)]), ([], [(1, 0)])] 1
    (List.Perm.swap _ _ _) (by simp) (by decide) (by decide) (by simp)

/-- C9. Low-pass averaging is commutative in channel order: for a non-empty
list of pyramid levels whose `low_pass` bands all have length `L` and every
permutation of it, `fuseLastLowPassLayer` returns the same sequence of `L`
coefficients. -/
theorem fuseLastLowPassLayer_perm (levels levels' : List PyramidLevel) (L : ℕ)
    (hperm : levels'.Perm levels) (hne : levels ≠ []) (hm : levels.length < U32)
    (hL : L < U32) (hlow : ∀ l ∈ levels, l.1.length = L) :
    ∃ fused, fuseLastLowPassLayer levels = .ok fused ∧
      fuseLastLowPassLayer levels' = .ok fused ∧ fused.length = L := by
  have hne' : levels' ≠ [] := by
    intro h; rw [h] at hperm; exact hne (List.Perm.nil_eq hperm).symm
  refine ⟨_, fuseLastLowPassLayer_spec levels L hne hm hL hlow, ?_, by simp⟩
  rw [fuseLastLowPassLayer_spec levels' L hne' (by rw [hperm.length_eq]; exact hm) hL
    (fun l hl => hlow l (hperm.mem_iff.mp hl))]
  congr 1
  apply List.map_congr_left
  intro i _
  exact low_pass_mean_perm hperm i

/-- Witness of C9 at two channels with low-pass bands of length 2. -/
theorem fuseLastLowPassLayer_perm_witness :
    ∃ fused, fuseLastLowPassLayer [([(5, 1), (7, 3)], []), ([(15, 3), (1, 1)], [])] = .ok fused ∧
      fuseLastLowPassLayer [([(15, 3), (1, 1)], []), ([(5, 1), (7, 3)], [])] = .ok fused ∧
      fused.length = 2 :=
  fuseLastLowPassLayer_perm [([(5, 1), (7, 3)], []), ([(15, 3), (1, 1)], [])]
    [([(15, 3), (1, 1)], []), ([(5, 1), (7, 3)], [])] 2 (List.Perm.swap _ _ _) (by simp)
    (by decide) (by decide) (by simp)

/-! ## The count of non-zero residual bins -/

/-- C10, counterexample. For `n = 2` and `divider = 2 > 1` the band
`[round(1), 2 - round(1)) = [1, 1)` is empty: `reduce` zeroes nothing, and the
residual of a spectrum without zero coefficients has `2 = n` non-zero bins. -/
theorem reduce_nnz_not_strict :
    (1 : ℚ) < 2 ∧ (∀ c ∈ [(((1 : ℚ), (1 : ℚ)) : complex_t), (1, 1)], c.1 ≠ 0 ∨ c.2 ≠ 0) ∧
      ∃ (low_pass residual : List complex_t),
        reduce 2 [(1, 1), (1, 1)] 2 = .ok (low_pass, residual) ∧
        nnz residual = 2 ∧ ¬ (nnz residual < 2) := by
  refine ⟨by norm_num, by simp, [], [(1, 1), (1, 1)], ?_, ?_, ?_⟩
  · simp [reduce, lower_bound_2_2, upper_bound_2_2, n_low_pass_2_2, forRange, forLoop,
      reduceDiffStep, readAt, writeAt, zeros, bind, Except.bind, pure, Except.pure,
      List.replicate]
  · simp [nnz]
  · simp [nnz]

/-- C10, amended. For every spectrum of length `n` and every divider whose
band is not empty, `round(n / divider) < n - round(n / divider)`, the number
of non-zero bins of the residual returned by `reduce` is strictly less than `n`. -/
theorem reduce_nnz_lt (d : ℚ) (spectrum : List complex_t) (n : ℕ)
    (hlen : spectrum.length = n) (hn : n < U32)
    (hband : lower_bound d n < n - lower_bound d n) :
    ∃ low_pass residual, reduce d spectrum n = .ok (low_pass, residual) ∧
      nnz residual < n := by
  have hlb : lower_bound d n ≤ n := by omega
  obtain ⟨low, res, hred, _, hr1, _, hr2⟩ :=
    reduce_ok d spectrum n hn (Nat.le_of_eq hlen.symm) hlb
  have hub := upper_bound_of_le hn hlb
  refine ⟨low, res, hred, ?_⟩
  have hz : res[lower_bound d n]? = some (0, 0) := by
    rw [hr2 _ (by omega), if_pos (by omega)]
  have := nnz_lt_length_of_zero res _ hz
  omega

/-- Witness of C10 (amended) at the test's `divider = 4`, `n = 8`. -/
theorem reduce_nnz_lt_witness :
    ∃ low_pass residual, reduce 4 (createFixedCoefficients 5 8) 8 = .ok (low_pass, residual) ∧
      nnz residual < 8 :=
  reduce_nnz_lt 4 (createFixedCoefficients 5 8) 8 rfl (by decide)
    (by rw [lower_bound_4_8]; decide)

/-! ## The loops of `fuseChannels` -/

theorem reduceD_of_ok {d : ℚ} {ch : List complex_t} {n : ℕ} {l : PyramidLevel}
    (h : reduce d ch n = .ok l) : reduceD d ch n = l := by
  unfold reduceD; rw [h]

/-- The inner loop of `fuseChannels` reduces every channel. -/
theorem reduceChannels_ok (d : ℚ) (channels : List (List complex_t)) (n : ℕ)
    (hm : channels.length < U32) (hred : ∀ ch ∈ channels, ∃ l, reduce d ch n = .ok l) :
    forRange 0 (toU32 channels.length) (reduceChannelStep d channels n)
      (List.replicate (toU32 channels.length) ([], [])) =
      .ok (channels.map (fun ch => reduceD d ch n)) := by
  rw [toU32_of_lt hm]
  have hfill := forRange_fill_eq (reduceChannelStep d channels n)
    (fun j => reduceD d (channels.getD j []) n) channels.length
    (List.replicate channels.length ([], [])) (by simp)
    (by
      intro j xs hj hxs
      obtain ⟨l, hl⟩ := hred _ (List.getElem_mem hj)
      simp [reduceChannelStep, readAt_of_lt hj, hl, writeAt_of_lt _ (show j < xs.length by omega),
        bind, Except.bind, List.getD_eq_getElem?_getD, List.getElem?_eq_getElem hj,
        reduceD_of_ok hl])
  rw [hfill]
  congr 1
  apply List.ext_getElem?
  intro j
  by_cases hj : j < channels.length
  · simp [List.getElem?_range hj, List.getElem?_eq_getElem hj, List.getD_eq_getElem?_getD]
  · rw [List.getElem?_eq_none (by simp; omega), List.getElem?_eq_none (by simp; omega)]

/-- The outer loop of `fuseChannels` stores the same fused residual and the
same pyramid levels at every level. -/
theorem buildLevels_ok (d : ℚ) (channels : List (List complex_t)) (n L : ℕ)
    (fused : List complex_t)
    (hm : channels.length < U32) (hred : ∀ ch ∈ channels, ∃ l, reduce d ch n = .ok l)
    (hfuse : fuseLevelByMaxCoeff (channels.map (fun ch => reduceD d ch n)) n = .ok fused) :
    forRange 0 L (buildLevelStep d channels n) (List.replicate L [], []) =
      .ok (List.replicate L fused,
           List.replicate L (channels.map (fun ch => reduceD d ch n))) := by
  obtain ⟨s, hs, h1, h2, h3⟩ := forRange_inv (buildLevelStep d channels n)
    (fun i s => s.1.length = L ∧ (∀ k, k < i → s.1[k]? = some fused) ∧
      s.2 = List.replicate i (channels.map (fun ch => reduceD d ch n)))
    0 L (List.replicate L [], []) (Nat.zero_le L)
    ⟨by simp, fun k hk => absurd hk (Nat.not_lt_zero k), by simp⟩
    (by
      rintro i ⟨fl, pp⟩ _ hi ⟨h1, h2, h3⟩
      simp only at h1 h2 h3
      refine ⟨(fl.set i fused, pp ++ [channels.map (fun ch => reduceD d ch n)]), ?_, ?_⟩
      · simp [buildLevelStep, reduceChannels_ok d channels n hm hred, hfuse,
          writeAt_of_lt _ (show i < fl.length by omega), bind, Except.bind, pure, Except.pure]
      · refine ⟨by simp [h1], ?_, ?_⟩
        · intro k hk
          by_cases hik : i = k
          · subst hik; simp [List.getElem?_set, show i < fl.length by omega]
          · simp only [List.getElem?_set, hik, if_false]; exact h2 k (by omega)
        · simp only [h3, List.replicate_succ'])
  rw [hs]
  congr 1
  refine Prod.ext ?_ h3
  apply List.ext_getElem?
  intro k
  by_cases hk : k < L
  · rw [h2 k hk]; simp [List.getElem?_replicate, hk]
  · rw [List.getElem?_eq_none (by omega), List.getElem?_eq_none (by simp; omega)]

/-- The reconstruction loop, started where the entries below `cnt` all hold
the residual `fused`, is a chain of `cnt` calls of `expand` on `fused`. -/
theorem forDown_recon (d : ℚ) (fused : List complex_t) :
    ∀ (cnt : ℕ) (fl : List (List complex_t)) (r : List complex_t),
      cnt ≤ fl.length → (∀ k, k < cnt → fl[k]? = some fused) →
      (forDown (reconStep d) cnt (fl, r) >>= fun s => pure s.2) = reconIter d fused cnt r := by
  intro cnt
  induction cnt with
  | zero => intro fl r _ _; rfl
  | succ c ih =>
    intro fl r hlen hfl
    have hc : c < fl.length := by omega
    have hread : readAt fl c = .ok fused := readAt_of_some (hfl c (by omega))
    cases hex : expand d r fused with
    | error e =>
      have hstep : reconStep d c (fl, r) = .error e := by
        simp only [reconStep, hread, hex, ok_bind, error_bind]
      simp only [forDown, hstep, reconIter, hex, error_bind]
    | ok out =>
      have hstep : reconStep d c (fl, r) = .ok (fl.set c out, out) := by
        simp only [reconStep, hread, hex, writeAt_of_lt _ hc, ok_bind]
        rfl
      have := ih (fl.set c out) out (by simp; omega)
        (fun k hk => by
          rw [List.getElem?_set_ne (by omega)]
          exact hfl k (by omega))
      simp only [forDown, hstep, reconIter, hex]
      exact this

theorem reconIter_succ (d : ℚ) (fused : List complex_t) :
    ∀ (k : ℕ) (r : List complex_t),
      reconIter d fused (k + 1) r =
        match reconIter d fused k r with
        | .ok x => expand d x fused
        | .error e => .error e := by
  intro k
  induction k with
  | zero =>
    intro r
    simp only [reconIter]
    cases expand d r fused <;> rfl
  | succ k ih =>
    intro r
    rw [reconIter]
    cases hex : expand d r fused with
    | error e => simp [reconIter, hex]
    | ok out =>
      simp only []
      rw [ih out]
      simp [reconIter, hex]

theorem toI8_le (x : ℕ) : toI8 x ≤ x := by
  unfold toI8
  split <;> omega

theorem reconCount_le {L : ℕ} (hL : 0 < L) (hL32 : L < U32) : reconCount L ≤ L := by
  unfold reconCount
  have h1 : subU32 L 1 = L - 1 := subU32_of_le hL32 hL
  have h2 := toI8_le (L - 1)
  rw [h1]
  omega

theorem reconCount_of_le_128 {L : ℕ} (hL : 0 < L) (hL128 : L ≤ 128) : reconCount L = L := by
  unfold reconCount
  rw [subU32_of_le (by unfold U32; omega) hL]
  unfold toI8
  have : (L - 1) % 256 = L - 1 := Nat.mod_eq_of_lt (by omega)
  rw [this, if_pos (by omega)]
  omega

theorem reconCount_129 : reconCount 129 = 0 := by decide

/-- The function `fuseChannels` as the chain of `expand` calls it performs:
all levels hold the same pyramid levels `channels.map reduceD` and the same
fused residual, and the last low-pass layer is expanded `reconCount` times. -/
theorem fuseChannels_eq (d : ℚ) (channels : List (List complex_t)) (n L : ℕ)
    (fused : List complex_t) (hL : 0 < L) (hL32 : L < U32)
    (hm : channels.length < U32) (hred : ∀ ch ∈ channels, ∃ l, reduce d ch n = .ok l)
    (hfuse : fuseLevelByMaxCoeff (channels.map (fun ch => reduceD d ch n)) n = .ok fused) :
    fuseChannels d channels n L =
      (fuseLastLowPassLayer (channels.map (fun ch => reduceD d ch n)) >>=
        fun low_pass => reconIter d fused (reconCount L) low_pass) := by
  have hlast : back (List.replicate L (channels.map (fun ch => reduceD d ch n))) =
      .ok (channels.map (fun ch => reduceD d ch n)) := by
    obtain ⟨L', rfl⟩ : ∃ L', L = L' + 1 := ⟨L - 1, by omega⟩
    rw [List.replicate_succ']; simp [back]
  have hcnt := reconCount_le hL hL32
  have hdown := fun low_pass => forDown_recon d fused (reconCount L) (List.replicate L fused)
    low_pass (by simpa using hcnt)
    (fun k hk => by simp [List.getElem?_replicate]; omega)
  unfold fuseChannels
  rw [buildLevels_ok d channels n L fused hm hred hfuse]
  simp only [ok_bind, hlast, hdown]

/-! ## The pyramid levels and the reconstruction chain of `fuseChannels` -/

/-- The pyramid level of a channel of length `n` when the band is in range. -/
theorem reduceD_spec (d : ℚ) (ch : List complex_t) (n : ℕ) (hn : n < U32)
    (hlen : ch.length = n) (hband : lower_bound d n ≤ n - lower_bound d n) :
    reduce d ch n = .ok (reduceD d ch n) ∧
      (reduceD d ch n).1.length = n - 2 * lower_bound d n ∧
      (reduceD d ch n).2.length = n ∧
      (∀ k, k < n - 2 * lower_bound d n →
        (reduceD d ch n).1[k]? = ch[lower_bound d n + k]?) ∧
      (∀ i, i < n → (reduceD d ch n).2[i]? =
        if lower_bound d n ≤ i ∧ i < n - lower_bound d n then some (0, 0) else ch[i]?) := by
  have hlb : lower_bound d n ≤ n := by omega
  obtain ⟨low, res, hred, hl1, hr1, hl2, hr2⟩ :=
    reduce_ok d ch n hn (Nat.le_of_eq hlen.symm) hlb
  have hub := upper_bound_of_le hn hlb
  rw [reduceD_of_ok hred]
  refine ⟨hred, ?_, hr1, ?_, ?_⟩
  · rw [hl1, n_low_pass_of_le hn (by omega)]
  · intro k hk
    show low[k]? = _
    rw [hl2 k, if_pos (by omega)]
  · intro i hi
    show res[i]? = _
    rw [hr2 i hi, hub]

/-- The effect of `expand` on a residual of length `n` when the band is in range. -/
theorem expand_spec (d : ℚ) (low lapl : List complex_t) (n : ℕ) (hn : n < U32)
    (hlen : lapl.length = n) (hband : lower_bound d n ≤ n - lower_bound d n)
    (hlow : n - 2 * lower_bound d n ≤ low.length) :
    ∃ out, expand d low lapl = .ok out ∧ out.length = n ∧
      ∀ i, out[i]? =
        if lower_bound d n ≤ i ∧ i < n - lower_bound d n
        then low[i - lower_bound d n]? else lapl[i]? := by
  have hlb : lower_bound d n ≤ n := by omega
  have hub := upper_bound_of_le hn hlb
  obtain ⟨out, hex, ho1, ho2⟩ := expand_ok d low lapl (by rw [hlen]; exact hn)
    (by rw [hlen]; exact hlb) (by rw [hlen, hub]; omega)
  refine ⟨out, hex, by rw [ho1, hlen], ?_⟩
  intro i
  rw [ho2 i, hlen, hub]

/-- The reconstruction chain returns normally; after at least one step the
result has length `n` and equals the residual outside the band. -/
theorem reconIter_ok (d : ℚ) (fused : List complex_t) (n : ℕ) (hn : n < U32)
    (hlen : fused.length = n) (hband : lower_bound d n ≤ n - lower_bound d n) :
    ∀ (k : ℕ) (r : List complex_t), n - 2 * lower_bound d n ≤ r.length →
      ∃ out, reconIter d fused k r = .ok out ∧ n - 2 * lower_bound d n ≤ out.length ∧
        (k = 0 → out = r) ∧
        (0 < k → out.length = n ∧
          ∀ i, ¬ (lower_bound d n ≤ i ∧ i < n - lower_bound d n) → out[i]? = fused[i]?) := by
  intro k
  induction k with
  | zero =>
    intro r hr
    exact ⟨r, rfl, hr, fun _ => rfl, fun h => absurd h (Nat.lt_irrefl 0)⟩
  | succ k ih =>
    intro r hr
    obtain ⟨x, hx, hxlen, _, _⟩ := ih r hr
    obtain ⟨out, hex, ho1, ho2⟩ := expand_spec d x fused n hn hlen hband hxlen
    refine ⟨out, ?_, by omega, fun h => absurd h (Nat.succ_ne_zero k), fun _ => ⟨ho1, ?_⟩⟩
    · rw [reconIter_succ, hx]; exact hex
    · intro i hi
      rw [ho2 i, if_neg hi]

/-- A property of coefficients that holds for the start buffer and for the
residual outside the band holds for every entry of the reconstruction. -/
theorem reconIter_forall (Q : complex_t → Prop) (d : ℚ) (fused : List complex_t) (n : ℕ)
    (hn : n < U32) (hlen : fused.length = n)
    (hband : lower_bound d n ≤ n - lower_bound d n)
    (hfused : ∀ (i : ℕ) (v : complex_t),
      ¬ (lower_bound d n ≤ i ∧ i < n - lower_bound d n) → fused[i]? = some v → Q v) :
    ∀ (k : ℕ) (r : List complex_t), n - 2 * lower_bound d n ≤ r.length →
      (∀ (i : ℕ) (v : complex_t), r[i]? = some v → Q v) →
      ∀ out : List complex_t, reconIter d fused k r = .ok out →
        ∀ (i : ℕ) (v : complex_t), out[i]? = some v → Q v := by
  intro k
  induction k with
  | zero =>
    intro r _ hQ out hout
    simp only [reconIter] at hout
    cases hout; exact hQ
  | succ k ih =>
    intro r hr hQ out hout
    obtain ⟨x, hx, hxlen, _, _⟩ := reconIter_ok d fused n hn hlen hband k r hr
    rw [reconIter_succ, hx] at hout
    obtain ⟨out', hex, _, ho2⟩ := expand_spec d x fused n hn hlen hband hxlen
    simp only at hout
    rw [hex] at hout; cases hout
    intro i v hv
    rw [ho2 i] at hv
    by_cases hb : lower_bound d n ≤ i ∧ i < n - lower_bound d n
    · rw [if_pos hb] at hv
      exact ih r hr hQ x hx (i - lower_bound d n) v hv
    · rw [if_neg hb] at hv
      exact hfused i v hb hv

/-- For well-formed input `fuseChannels` is the reconstruction chain started
at the per-bin means of the low-pass bands and run on the winner-take-all
fusion of the residuals. -/
theorem fuseChannels_spec (d : ℚ) (channels : List (List complex_t)) (n : ℕ)
    (hne : channels ≠ []) (hm : channels.length < U32)
    (hlen : ∀ ch ∈ channels, ch.length = n) (hn0 : 0 < n) (hn : n < U32)
    (hband : lower_bound d n ≤ n - lower_bound d n) :
    ∃ fused, fuseLevelByMaxCoeff (channels.map (fun ch => reduceD d ch n)) n = .ok fused ∧
      fused.length = n ∧
      (∀ i, i < n → ∃ v, fused[i]? = some v ∧
        ∃ c, IsFirstMax (channels.map (fun ch => reduceD d ch n)) i c v) ∧
      ∀ L, 0 < L → L < U32 → fuseChannels d channels n L =
        reconIter d fused (reconCount L)
          ((List.range (n - 2 * lower_bound d n)).map
            (low_pass_mean (channels.map (fun ch => reduceD d ch n)))) := by
  have hlv_ne : channels.map (fun ch => reduceD d ch n) ≠ [] := by simpa using hne
  have hlv_len : (channels.map (fun ch => reduceD d ch n)).length < U32 := by simpa using hm
  have hres : ∀ lvl ∈ channels.map (fun ch => reduceD d ch n), n ≤ lvl.2.length := by
    intro lvl hl
    obtain ⟨ch, hch, rfl⟩ := List.mem_map.mp hl
    exact Nat.le_of_eq (reduceD_spec d ch n hn (hlen ch hch) hband).2.2.1.symm
  have hlow : ∀ lvl ∈ channels.map (fun ch => reduceD d ch n),
      lvl.1.length = n - 2 * lower_bound d n := by
    intro lvl hl
    obtain ⟨ch, hch, rfl⟩ := List.mem_map.mp hl
    exact (reduceD_spec d ch n hn (hlen ch hch) hband).2.1
  obtain ⟨fused, hf, hflen, hall⟩ := fuseLevelByMaxCoeff_spec _ n hlv_ne hlv_len hn0 hres
  refine ⟨fused, hf, hflen, hall, ?_⟩
  intro L hL hL32
  rw [fuseChannels_eq d channels n L fused hL hL32 hm
    (fun ch hch => ⟨_, (reduceD_spec d ch n hn (hlen ch hch) hband).1⟩) hf,
    fuseLastLowPassLayer_spec _ (n - 2 * lower_bound d n) hlv_ne hlv_len (by omega) hlow,
    ok_bind]

/-- Outside the band the winner among the pyramid levels is the winner among
the original channels. -/
theorem isFirstMax_channels (d : ℚ) (channels : List (List complex_t)) (n i c : ℕ)
    (v : complex_t) (hlen : ∀ ch ∈ channels, ch.length = n) (hn : n < U32)
    (hband : lower_bound d n ≤ n - lower_bound d n) (hi : i < n)
    (hout : ¬ (lower_bound d n ≤ i ∧ i < n - lower_bound d n))
    (h : IsFirstMax (channels.map (fun ch => reduceD d ch n)) i c v) :
    ∃ ch, channels[c]? = some ch ∧ ch[i]? = some v ∧
      ∀ (c' : ℕ) (ch' : List complex_t) (v' : complex_t),
        channels[c']? = some ch' → ch'[i]? = some v' →
        energy v' ≤ energy v ∧ (c' < c → energy v' < energy v) := by
  have hres : ∀ ch ∈ channels, (reduceD d ch n).2[i]? = ch[i]? := by
    intro ch hch
    rw [(reduceD_spec d ch n hn (hlen ch hch) hband).2.2.2.2 i hi, if_neg hout]
  obtain ⟨⟨lvl, hl, hv⟩, hmax⟩ := h
  rw [List.getElem?_map] at hl
  cases hch : channels[c]? with
  | none => rw [hch] at hl; cases hl
  | some ch =>
    rw [hch] at hl
    simp only [Option.map_some'] at hl
    cases hl
    have hmem : ch ∈ channels := List.mem_iff_getElem?.mpr ⟨c, hch⟩
    refine ⟨ch, rfl, by rw [← hres ch hmem]; exact hv, ?_⟩
    intro c' ch' v' hc' hv'
    have hmem' : ch' ∈ channels := List.mem_iff_getElem?.mpr ⟨c', hc'⟩
    exact hmax c' (reduceD d ch' n) v' (by rw [List.getElem?_map, hc']; rfl)
      (by rw [hres ch' hmem']; exact hv')

/-- Inside the band the mean of the low-pass bands is the mean of the
original coefficients. -/
theorem low_pass_mean_channels (d : ℚ) (channels : List (List complex_t)) (n i : ℕ)
    (hlen : ∀ ch ∈ channels, ch.length = n) (hn : n < U32)
    (hband : lower_bound d n ≤ n - lower_bound d n)
    (h1 : lower_bound d n ≤ i) (h2 : i < n - lower_bound d n) :
    low_pass_mean (channels.map (fun ch => reduceD d ch n)) (i - lower_bound d n) =
      ((channels.map (fun ch => (ch.getD i (0, 0)).1)).sum / (channels.length : ℚ),
       (channels.map (fun ch => (ch.getD i (0, 0)).2)).sum / (channels.length : ℚ)) := by
  have hget : ∀ ch ∈ channels,
      (reduceD d ch n).1.getD (i - lower_bound d n) (0, 0) = ch.getD i (0, 0) := by
    intro ch hch
    rw [List.getD_eq_getElem?_getD, List.getD_eq_getElem?_getD,
      (reduceD_spec d ch n hn (hlen ch hch) hband).2.2.2.1 _ (by omega)]
    congr 2; omega
  unfold low_pass_mean
  simp only [List.map_map, List.length_map, Function.comp_def]
  have hre : channels.map
      (fun x => ((reduceD d x n).1.getD (i - lower_bound d n) (0, 0)).1) =
      channels.map (fun ch => (ch.getD i (0, 0)).1) :=
    List.map_congr_left (fun ch hch => by rw [hget ch hch])
  have him : channels.map
      (fun x => ((reduceD d x n).1.getD (i - lower_bound d n) (0, 0)).2) =
      channels.map (fun ch => (ch.getD i (0, 0)).2) :=
    List.map_congr_left (fun ch hch => by rw [hget ch hch])
  rw [hre, him]

/-- The result of `expand` on the pyramid level of a spectrum is the spectrum. -/
theorem expand_reduceD (d : ℚ) (spectrum : List complex_t) (n : ℕ) (hn : n < U32)
    (hlen : spectrum.length = n) (hband : lower_bound d n ≤ n - lower_bound d n) :
    expand d (reduceD d spectrum n).1 (reduceD d spectrum n).2 = .ok spectrum := by
  obtain ⟨_, hl1, hr1, hl2, hr2⟩ := reduceD_spec d spectrum n hn hlen hband
  obtain ⟨out, hex, ho1, ho2⟩ := expand_spec d (reduceD d spectrum n).1
    (reduceD d spectrum n).2 n hn hr1 hband (by omega)
  rw [hex]
  congr 1
  apply List.ext_getElem?
  intro i
  rw [ho2 i]
  by_cases hb : lower_bound d n ≤ i ∧ i < n - lower_bound d n
  · rw [if_pos hb, hl2 _ (by omega)]
    congr 1; omega
  · rw [if_neg hb]
    by_cases hi : i < n
    · rw [hr2 i hi, if_neg hb]
    · rw [List.getElem?_eq_none (by omega), List.getElem?_eq_none (by omega)]

/-! ## Failed preconditions of `fuseChannels` -/

theorem lower_bound_zero (d : ℚ) : lower_bound d 0 = 0 :=
  lower_bound_eq_of_bounds (by unfold U32; norm_num) (by simp) (by simp) (by simp; norm_num)

theorem reduce_zero (d : ℚ) (ch : List complex_t) : reduce d ch 0 = .ok ([], []) := by
  have hu : upper_bound d 0 = 0 := by
    unfold upper_bound; rw [lower_bound_zero]; rfl
  have hl : n_low_pass d 0 = 0 := by
    unfold n_low_pass; rw [hu, lower_bound_zero]; rfl
  simp [reduce, lower_bound_zero, hu, hl, forRange, forLoop, zeros, bind, Except.bind,
    pure, Except.pure]

theorem forRange_error_first {σ : Type} (body : ℕ → σ → Except Fault σ) (hi : ℕ) (s : σ)
    (e : Fault) (hpos : 0 < hi) (h : body 0 s = .error e) :
    forRange 0 hi body s = .error e := by
  obtain ⟨c, rfl⟩ : ∃ c, hi = c + 1 := ⟨hi - 1, by omega⟩
  simp [forRange, forLoop, h]

/-- With at least one level, an empty channel list or a bin count of zero
makes the `CHECK_GT` of `fuseLevelByMaxCoeff` fail in the first level. -/
theorem fuseChannels_check_failed (d : ℚ) (channels : List (List complex_t)) (n L : ℕ)
    (hL : 0 < L) (hm : channels.length < U32) (h : channels = [] ∨ n = 0) :
    fuseChannels d channels n L = .error .check_failed := by
  have hstep : ∀ s, buildLevelStep d channels n 0 s = .error .check_failed := by
    intro s
    by_cases hc : channels = []
    · subst hc
      simp [buildLevelStep, toU32, forRange, forLoop, fuseLevelByMaxCoeff, bind, Except.bind]
    · have hn : n = 0 := by
        rcases h with h | h
        · exact absurd h hc
        · exact h
      subst hn
      have := reduceChannels_ok d channels 0 hm (fun ch _ => ⟨_, reduce_zero d ch⟩)
      simp [buildLevelStep, this, fuseLevelByMaxCoeff, hc, bind, Except.bind]
  unfold fuseChannels
  rw [forRange_error_first _ L _ _ hL (hstep _), error_bind]

/-- With between 1 and 128 levels `fuseChannels` returns `n` coefficients. -/
theorem fuseChannels_length (d : ℚ) (channels : List (List complex_t)) (n L : ℕ)
    (hne : channels ≠ []) (hm : channels.length < U32)
    (hlen : ∀ ch ∈ channels, ch.length = n) (hn0 : 0 < n) (hn : n < U32)
    (hband : lower_bound d n ≤ n - lower_bound d n) (hL : 0 < L) (hL128 : L ≤ 128) :
    ∃ fused, fuseChannels d channels n L = .ok fused ∧ fused.length = n := by
  obtain ⟨fr, _, hflen, _, hchain⟩ := fuseChannels_spec d channels n hne hm hlen hn0 hn hband
  obtain ⟨out, hout, _, _, hk⟩ := reconIter_ok d fr n hn hflen hband (reconCount L)
    ((List.range (n - 2 * lower_bound d n)).map
      (low_pass_mean (channels.map (fun ch => reduceD d ch n)))) (by simp)
  refine ⟨out, ?_, (hk (by rw [reconCount_of_le_128 hL hL128]; exact hL)).1⟩
  rw [hchain L hL (by unfold U32; omega), hout]

/-- The mean of the original coefficients at a bin of the band is positive
in both parts when all coefficients are. -/
theorem low_pass_mean_pos (d : ℚ) (channels : List (List complex_t)) (n k : ℕ)
    (hne : channels ≠ []) (hlen : ∀ ch ∈ channels, ch.length = n) (hn : n < U32)
    (hpos : ∀ ch ∈ channels, ∀ c ∈ ch, 0 < c.1 ∧ 0 < c.2)
    (hband : lower_bound d n ≤ n - lower_bound d n) (hk : k < n - 2 * lower_bound d n) :
    0 < (low_pass_mean (channels.map (fun ch => reduceD d ch n)) k).1 ∧
      0 < (low_pass_mean (channels.map (fun ch => reduceD d ch n)) k).2 := by
  have hk2 : k = (k + lower_bound d n) - lower_bound d n := by omega
  rw [hk2, low_pass_mean_channels d channels n (k + lower_bound d n) hlen hn hband
    (by omega) (by omega)]
  have hcpos : ∀ ch ∈ channels, 0 < (ch.getD (k + lower_bound d n) (0, 0)).1 ∧
      0 < (ch.getD (k + lower_bound d n) (0, 0)).2 := by
    intro ch hch
    have hlt : k + lower_bound d n < ch.length := by rw [hlen ch hch]; omega
    rw [List.getD_eq_getElem?_getD, List.getElem?_eq_getElem hlt]
    exact hpos ch hch _ (List.getElem_mem hlt)
  have hm : (0 : ℚ) < (channels.length : ℚ) := by
    have := List.length_pos.mpr hne
    exact_mod_cast this
  constructor
  · apply div_pos _ hm
    apply List.sum_pos
    · intro x hx
      obtain ⟨ch, hch, rfl⟩ := List.mem_map.mp hx
      exact (hcpos ch hch).1
    · simpa using hne
  · apply div_pos _ hm
    apply List.sum_pos
    · intro x hx
      obtain ⟨ch, hch, rfl⟩ := List.mem_map.mp hx
      exact (hcpos ch hch).2
    · simpa using hne

/-! ## Claims about `expand` and `fuseChannels` -/

/-- C11. Expand refills the band: for a spectrum of length `n` whose
coefficients are all non-zero and a divider with
`round(n / divider) ≤ n - round(n / divider)`, after
`(low_pass, residual) = reduce(spectrum, n)` and `expand(low_pass, residual)`
the number of non-zero bins of `residual` is `n`. -/
theorem reduce_expand_nnz (d : ℚ) (spectrum : List complex_t) (n : ℕ)
    (hlen : spectrum.length = n) (hn : n < U32)
    (hnz : ∀ c ∈ spectrum, c.1 ≠ 0 ∨ c.2 ≠ 0)
    (hband : lower_bound d n ≤ n - lower_bound d n) :
    ∃ low_pass residual out, reduce d spectrum n = .ok (low_pass, residual) ∧
      expand d low_pass residual = .ok out ∧ nnz out = n := by
  refine ⟨(reduceD d spectrum n).1, (reduceD d spectrum n).2, spectrum,
    (reduceD_spec d spectrum n hn hlen hband).1, expand_reduceD d spectrum n hn hlen hband, ?_⟩
  rw [nnz_eq_length_of_nonzero spectrum hnz, hlen]

/-- Witness of C11 at the test's `divider = 4`, `n = 8`. -/
theorem reduce_expand_nnz_witness :
    ∃ low_pass residual out,
      reduce 4 (createFixedCoefficients 5 8) 8 = .ok (low_pass, residual) ∧
      expand 4 low_pass residual = .ok out ∧ nnz out = 8 :=
  reduce_expand_nnz 4 (createFixedCoefficients 5 8) 8 rfl (by decide)
    (by simp [createFixedCoefficients]) (by rw [lower_bound_4_8]; decide)

/-- C12. Positivity of `fuseChannels`: for a non-empty list of channels of
length `n` whose coefficients all have strictly positive real and imaginary
parts, a divider with `round(n / divider) ≤ n - round(n / divider)` and
`n_levels ≥ 1`, every bin of a spectrum returned by `fuseChannels` is
strictly positive in both parts; and for `n > 0` the call does return. -/
theorem fuseChannels_positive (d : ℚ) (channels : List (List complex_t)) (n L : ℕ)
    (hne : channels ≠ []) (hm : channels.length < U32)
    (hlen : ∀ ch ∈ channels, ch.length = n)
    (hpos : ∀ ch ∈ channels, ∀ c ∈ ch, 0 < c.1 ∧ 0 < c.2) (hn : n < U32)
    (hband : lower_bound d n ≤ n - lower_bound d n) (hL : 1 ≤ L) (hL32 : L < U32) :
    (0 < n → ∃ fused, fuseChannels d channels n L = .ok fused) ∧
      ∀ fused, fuseChannels d channels n L = .ok fused →
        ∀ c ∈ fused, 0 < c.1 ∧ 0 < c.2 := by
  rcases Nat.eq_zero_or_pos n with hn0 | hn0
  · have := fuseChannels_check_failed d channels n L hL hm (Or.inr hn0)
    refine ⟨fun h => absurd h (by omega), fun fused hf => ?_⟩
    rw [this] at hf; cases hf
  · obtain ⟨fr, _, hflen, hall, hchain⟩ :=
      fuseChannels_spec d channels n hne hm hlen hn0 hn hband
    obtain ⟨out, hout, _⟩ := reconIter_ok d fr n hn hflen hband (reconCount L)
      ((List.range (n - 2 * lower_bound d n)).map
        (low_pass_mean (channels.map (fun ch => reduceD d ch n)))) (by simp)
    refine ⟨fun _ => ⟨out, by rw [hchain L hL hL32, hout]⟩, ?_⟩
    intro fused hf c hc
    rw [hchain L hL hL32] at hf
    obtain ⟨i, hi⟩ := List.mem_iff_getElem?.mp hc
    refine reconIter_forall (fun v => 0 < v.1 ∧ 0 < v.2) d fr n hn hflen hband ?_
      (reconCount L) _ (by simp) ?_ fused hf i c hi
    · intro j v hj hv
      have hjn : j < n := by
        by_contra hcon
        rw [List.getElem?_eq_none (by omega)] at hv
        cases hv
      obtain ⟨w, hw, cwin, hfm⟩ := hall j hjn
      rw [hv] at hw; cases hw
      obtain ⟨ch, hch, hchv, _⟩ := isFirstMax_channels d channels n j cwin v hlen hn hband hjn hj hfm
      exact hpos ch (List.mem_iff_getElem?.mpr ⟨cwin, hch⟩) v (List.mem_iff_getElem?.mpr ⟨j, hchv⟩)
    · intro j v hv
      have hjm : j < n - 2 * lower_bound d n := by
        by_contra hcon
        rw [List.getElem?_eq_none (by simp; omega)] at hv
        cases hv
      rw [List.getElem?_map, List.getElem?_range hjm] at hv
      simp only [Option.map_some'] at hv
      cases hv
      exact low_pass_mean_pos d channels n j hne hlen hn hpos hband hjm

/-- Witness of C12 at the test: constant channels `5` and `15`, `n = 8`,
`divider = 4`, two levels. -/
theorem fuseChannels_positive_witness :
    (0 < 8 → ∃ fused,
      fuseChannels 4 [createFixedCoefficients 5 8, createFixedCoefficients 15 8] 8 2
        = .ok fused) ∧
      ∀ fused,
        fuseChannels 4 [createFixedCoefficients 5 8, createFixedCoefficients 15 8] 8 2
          = .ok fused →
        ∀ c ∈ fused, 0 < c.1 ∧ 0 < c.2 :=
  fuseChannels_positive 4 [createFixedCoefficients 5 8, createFixedCoefficients 15 8] 8 2
    (by simp) (by decide) (by simp [createFixedCoefficients])
    (by simp [createFixedCoefficients]) (by decide) (by rw [lower_bound_4_8]; decide)
    (by decide) (by decide)

/-- C18. Single-level fusion in closed form: for a non-empty list of channels
of length `n > 0` and a divider with
`lower_bound = round(n / divider) ≤ upper_bound = n - lower_bound`,
`fuseChannels(channels, n, 1)` returns `n` coefficients; outside the band
entry `i` is the original coefficient at bin `i` of the first channel of
maximal energy at that bin, and inside the band it is the arithmetic mean
over all channels of their original coefficients at bin `i`. -/
theorem fuseChannels_single_level (d : ℚ) (channels : List (List complex_t)) (n : ℕ)
    (hne : channels ≠ []) (hm : channels.length < U32)
    (hlen : ∀ ch ∈ channels, ch.length = n) (hn0 : 0 < n) (hn : n < U32)
    (hband : lower_bound d n ≤ n - lower_bound d n) :
    ∃ fused, fuseChannels d channels n 1 = .ok fused ∧ fused.length = n ∧
      (∀ i, i < n → ¬ (lower_bound d n ≤ i ∧ i < n - lower_bound d n) →
        ∃ (c : ℕ) (ch : List complex_t) (v : complex_t),
          channels[c]? = some ch ∧ ch[i]? = some v ∧ fused[i]? = some v ∧
          ∀ (c' : ℕ) (ch' : List complex_t) (v' : complex_t),
            channels[c']? = some ch' → ch'[i]? = some v' →
            energy v' ≤ energy v ∧ (c' < c → energy v' < energy v)) ∧
      (∀ i, lower_bound d n ≤ i → i < n - lower_bound d n →
        fused[i]? = some
          ((channels.map (fun ch => (ch.getD i (0, 0)).1)).sum / (channels.length : ℚ),
           (channels.map (fun ch => (ch.getD i (0, 0)).2)).sum / (channels.length : ℚ))) := by
  obtain ⟨fr, _, hflen, hall, hchain⟩ :=
    fuseChannels_spec d channels n hne hm hlen hn0 hn hband
  obtain ⟨out, hex, ho1, ho2⟩ := expand_spec d
    ((List.range (n - 2 * lower_bound d n)).map
      (low_pass_mean (channels.map (fun ch => reduceD d ch n)))) fr n hn hflen hband (by simp)
  refine ⟨out, ?_, ho1, ?_, ?_⟩
  · rw [hchain 1 (by decide) (by decide), reconCount_of_le_128 (by decide) (by decide)]
    simp only [reconIter, hex]
  · intro i hi hout
    obtain ⟨v, hv, c, hfm⟩ := hall i hi
    obtain ⟨ch, hch, hchv, hmax⟩ :=
      isFirstMax_channels d channels n i c v hlen hn hband hi hout hfm
    exact ⟨c, ch, v, hch, hchv, by rw [ho2 i, if_neg hout, hv], hmax⟩
  · intro i h1 h2
    rw [ho2 i, if_pos ⟨h1, h2⟩, List.getElem?_map,
      List.getElem?_range (show i - lower_bound d n < n - 2 * lower_bound d n by omega)]
    simp only [Option.map_some']
    rw [low_pass_mean_channels d channels n i hlen hn hband h1 h2]

/-- Witness of C18 at constant channels `5` and `15`, `n = 8`, `divider = 4`. -/
theorem fuseChannels_single_level_witness :
    ∃ fused,
      fuseChannels 4 [createFixedCoefficients 5 8, createFixedCoefficients 15 8] 8 1
        = .ok fused ∧ fused.length = 8 ∧
      (∀ i, i < 8 → ¬ (lower_bound 4 8 ≤ i ∧ i < 8 - lower_bound 4 8) →
        ∃ (c : ℕ) (ch : List complex_t) (v : complex_t),
          [createFixedCoefficients 5 8, createFixedCoefficients 15 8][c]? = some ch ∧
          ch[i]? = some v ∧ fused[i]? = some v ∧
          ∀ (c' : ℕ) (ch' : List complex_t) (v' : complex_t),
            [createFixedCoefficients 5 8, createFixedCoefficients 15 8][c']? = some ch' →
            ch'[i]? = some v' →
            energy v' ≤ energy v ∧ (c' < c → energy v' < energy v)) ∧
      (∀ i, lower_bound 4 8 ≤ i → i < 8 - lower_bound 4 8 →
        fused[i]? = some
          (([createFixedCoefficients 5 8, createFixedCoefficients 15 8].map
              (fun ch => (ch.getD i (0, 0)).1)).sum /
            (([createFixedCoefficients 5 8, createFixedCoefficients 15 8].length : ℕ) : ℚ),
           ([createFixedCoefficients 5 8, createFixedCoefficients 15 8].map
              (fun ch => (ch.getD i (0, 0)).2)).sum /
            (([createFixedCoefficients 5 8, createFixedCoefficients 15 8].length : ℕ) : ℚ))) :=
  fuseChannels_single_level 4 [createFixedCoefficients 5 8, createFixedCoefficients 15 8] 8
    (by simp) (by decide) (by simp [createFixedCoefficients]) (by decide) (by decide)
    (by rw [lower_bound_4_8]; decide)

/-- C19. Level recursion of `fuseChannels`: every level is rebuilt by `reduce`
on the original spectra, so the outer loop stores the same fused residual and
the same pyramid levels at every level; and for `1 ≤ L < 127`, non-empty
channels of length `n > 0` and
`lower_bound = round(n / divider) ≤ upper_bound = n - lower_bound`, the
results `R` for `L` levels and `R'` for `L + 1` levels satisfy `R'[i] = R[i]`
outside the band and `R'[lower_bound + k] = R[k]` for
`k < upper_bound - lower_bound`. -/
theorem fuseChannels_level_recursion (d : ℚ) (channels : List (List complex_t)) (n L : ℕ)
    (hne : channels ≠ []) (hm : channels.length < U32)
    (hlen : ∀ ch ∈ channels, ch.length = n) (hn0 : 0 < n) (hn : n < U32)
    (hband : lower_bound d n ≤ n - lower_bound d n) (hL1 : 1 ≤ L) (hL : L < 127) :
    (∃ (fused : List complex_t) (levels : List PyramidLevel),
      forRange 0 (L + 1) (buildLevelStep d channels n) (List.replicate (L + 1) [], []) =
        .ok (List.replicate (L + 1) fused, List.replicate (L + 1) levels)) ∧
    ∃ R R', fuseChannels d channels n L = .ok R ∧
      fuseChannels d channels n (L + 1) = .ok R' ∧
      R.length = n ∧ R'.length = n ∧
      (∀ i, i < n → ¬ (lower_bound d n ≤ i ∧ i < n - lower_bound d n) → R'[i]? = R[i]?) ∧
      (∀ k, k < n - lower_bound d n - lower_bound d n →
        R'[lower_bound d n + k]? = R[k]?) := by
  obtain ⟨fr, hfr, hflen, _, hchain⟩ :=
    fuseChannels_spec d channels n hne hm hlen hn0 hn hband
  constructor
  · exact ⟨fr, _, buildLevels_ok d channels n (L + 1) fr hm
      (fun ch hch => ⟨_, (reduceD_spec d ch n hn (hlen ch hch) hband).1⟩) hfr⟩
  · obtain ⟨R, hR, hRlen, _, hRk⟩ := reconIter_ok d fr n hn hflen hband L
      ((List.range (n - 2 * lower_bound d n)).map
        (low_pass_mean (channels.map (fun ch => reduceD d ch n)))) (by simp)
    obtain ⟨hRn, hRout⟩ := hRk (by omega)
    obtain ⟨out, hex, ho1, ho2⟩ := expand_spec d R fr n hn hflen hband hRlen
    refine ⟨R, out, ?_, ?_, hRn, ho1, ?_, ?_⟩
    · rw [hchain L (by omega) (by unfold U32; omega),
        reconCount_of_le_128 (by omega) (by omega), hR]
    · rw [hchain (L + 1) (by omega) (by unfold U32; omega),
        reconCount_of_le_128 (by omega) (by omega), reconIter_succ, hR]
      exact hex
    · intro i _ hout
      rw [ho2 i, if_neg hout, hRout i hout]
    · intro k hk
      rw [ho2, if_pos (by omega)]
      congr 1; omega

/-- Witness of C19 at constant channels `5` and `15`, `n = 8`, `divider = 4`,
going from one level to two. -/
theorem fuseChannels_level_recursion_witness :
    (∃ (fused : List complex_t) (levels : List PyramidLevel),
      forRange 0 (1 + 1)
        (buildLevelStep 4 [createFixedCoefficients 5 8, createFixedCoefficients 15 8] 8)
        (List.replicate (1 + 1) [], []) =
        .ok (List.replicate (1 + 1) fused, List.replicate (1 + 1) levels)) ∧
    ∃ R R',
      fuseChannels 4 [createFixedCoefficients 5 8, createFixedCoefficients 15 8] 8 1 = .ok R ∧
      fuseChannels 4 [createFixedCoefficients 5 8, createFixedCoefficients 15 8] 8 (1 + 1)
        = .ok R' ∧
      R.length = 8 ∧ R'.length = 8 ∧
      (∀ i, i < 8 → ¬ (lower_bound 4 8 ≤ i ∧ i < 8 - lower_bound 4 8) → R'[i]? = R[i]?) ∧
      (∀ k, k < 8 - lower_bound 4 8 - lower_bound 4 8 →
        R'[lower_bound 4 8 + k]? = R[k]?) :=
  fuseChannels_level_recursion 4 [createFixedCoefficients 5 8, createFixedCoefficients 15 8]
    8 1 (by simp) (by decide) (by simp [createFixedCoefficients]) (by decide) (by decide)
    (by rw [lower_bound_4_8]; decide) (by decide) (by decide)

theorem reconCount_one : reconCount 1 = 1 := by decide

/-- C20, failing input. The loop counter of the reconstruction is an `int8_t`
initialised to `n_levels - 1`: for `n_levels = 129` it starts at `-128`, no
`expand` runs, and `fuseChannels` returns the averaged low-pass layer, which
for `n = 8`, `divider = 4` has `4` coefficients and not `8`. -/
theorem fuseChannels_129_levels :
    toI8 (subU32 129 1) = -128 ∧ reconCount 129 = 0 ∧
      fuseChannels 4 [createFixedCoefficients 5 8, createFixedCoefficients 15 8] 8 129 =
        .ok [(10, 10), (10, 10), (10, 10), (10, 10)] := by
  refine ⟨by decide, by decide, ?_⟩
  obtain ⟨fr, _, _, _, hchain⟩ := fuseChannels_spec 4
    [createFixedCoefficients 5 8, createFixedCoefficients 15 8] 8 (by simp) (by decide)
    (by simp [createFixedCoefficients]) (by decide) (by decide)
    (by rw [lower_bound_4_8]; decide)
  rw [hchain 129 (by decide) (by decide), reconCount_129, lower_bound_4_8]
  simp only [reconIter, List.map, reduceD_of_ok (reduce_4_fixed_8 5),
    reduceD_of_ok (reduce_4_fixed_8 15)]
  congr 1
  norm_num [List.range_succ, low_pass_mean]

/-! ## Fatal precondition violations -/

theorem readAt_error {α : Type} {xs : List α} {i : ℕ} {e : Fault}
    (h : readAt xs i = .error e) : e = .out_of_bounds := by
  unfold readAt at h
  cases hx : xs[i]? with
  | none => rw [hx] at h; cases h; rfl
  | some x => rw [hx] at h; cases h

theorem writeAt_error {α : Type} {xs : List α} {i : ℕ} {v : α} {e : Fault}
    (h : writeAt xs i v = .error e) : e = .out_of_bounds := by
  unfold writeAt at h
  by_cases hi : i < xs.length
  · rw [if_pos hi] at h; cases h
  · rw [if_neg hi] at h; cases h; rfl

theorem writeAt_length {α : Type} {xs ys : List α} {i : ℕ} {v : α}
    (h : writeAt xs i v = .ok ys) : ys.length = xs.length := by
  unfold writeAt at h
  by_cases hi : i < xs.length
  · rw [if_pos hi] at h; cases h; simp
  · rw [if_neg hi] at h; cases h

/-- A loop stops with a fault only if its body does. -/
theorem forLoop_error {σ : Type} (body : ℕ → σ → Except Fault σ) (e : Fault) :
    ∀ (cnt i : ℕ) (s : σ), forLoop body cnt i s = .error e →
      ∃ j t, body j t = .error e := by
  intro cnt
  induction cnt with
  | zero => intro i s h; simp [forLoop] at h
  | succ c ih =>
    intro i s h
    cases hb : body i s with
    | error e' =>
      simp only [forLoop, hb] at h
      cases h
      exact ⟨i, s, hb⟩
    | ok t =>
      simp only [forLoop, hb] at h
      exact ih (i + 1) t h

/-- A property kept by every successful iteration holds after the loop. -/
theorem forLoop_preserves {σ : Type} (body : ℕ → σ → Except Fault σ) (P : σ → Prop)
    (hbody : ∀ j t t', P t → body j t = .ok t' → P t') :
    ∀ (cnt i : ℕ) (s s' : σ), P s → forLoop body cnt i s = .ok s' → P s' := by
  intro cnt
  induction cnt with
  | zero => intro i s s' hP h; simp only [forLoop] at h; cases h; exact hP
  | succ c ih =>
    intro i s s' hP h
    cases hb : body i s with
    | error e => simp only [forLoop, hb] at h; cases h
    | ok t =>
      simp only [forLoop, hb] at h
      exact ih (i + 1) t s' (hbody i s t hP hb) h

theorem energyStep_error {levels : List PyramidLevel} {j i : ℕ} {es : List ℚ} {e : Fault}
    (h : energyStep levels j i es = .error e) : e = .out_of_bounds := by
  unfold energyStep at h
  cases h1 : readAt levels i with
  | error e1 =>
    rw [h1, error_bind] at h; cases h; exact readAt_error h1
  | ok level =>
    rw [h1, ok_bind] at h
    unfold computeSignalEnergyForLevel at h
    cases h2 : readAt level.2 j with
    | error e2 =>
      rw [h2, error_bind, error_bind] at h; cases h; exact readAt_error h2
    | ok signal =>
      rw [h2, ok_bind] at h
      exact writeAt_error h

theorem energyStep_length {levels : List PyramidLevel} {j i : ℕ} {es es' : List ℚ}
    (h : energyStep levels j i es = .ok es') : es'.length = es.length := by
  unfold energyStep at h
  cases h1 : readAt levels i with
  | error e1 => rw [h1, error_bind] at h; cases h
  | ok level =>
    rw [h1, ok_bind] at h
    unfold computeSignalEnergyForLevel at h
    cases h2 : readAt level.2 j with
    | error e2 => rw [h2, error_bind, error_bind] at h; cases h
    | ok signal =>
      rw [h2, ok_bind] at h
      exact writeAt_length h

theorem findMaxCoeffForChannels_error {levels : List PyramidLevel} {j : ℕ} {e : Fault}
    (hne : levels ≠ []) (hm : levels.length < U32)
    (h : findMaxCoeffForChannels levels j = .error e) : e = .out_of_bounds := by
  unfold findMaxCoeffForChannels at h
  simp only [toU32_of_lt hm] at h
  cases hes : forRange 0 levels.length (energyStep levels j)
      (List.replicate levels.length 0) with
  | error e1 =>
    rw [hes, error_bind] at h; cases h
    obtain ⟨i, t, hb⟩ := forLoop_error _ _ _ _ _ hes
    exact energyStep_error hb
  | ok es =>
    rw [hes, ok_bind] at h
    have hlen : es.length = levels.length :=
      forLoop_preserves (energyStep levels j) (fun t => t.length = levels.length)
        (fun i t t' ht hb => (energyStep_length hb).trans ht) _ _ _ es (by simp) hes
    have hes_ne : es ≠ [] := by
      intro h0; rw [h0] at hlen
      exact hne (List.length_eq_zero.mp hlen.symm)
    obtain ⟨idx, v, hidx, _, _⟩ := max_element_spec es hes_ne
    simp only [hidx] at h
    cases h

theorem fuseMaxStep_error {levels : List PyramidLevel} {i : ℕ} {fused : List complex_t}
    {e : Fault} (hne : levels ≠ []) (hm : levels.length < U32)
    (h : fuseMaxStep levels i fused = .error e) : e = .out_of_bounds := by
  unfold fuseMaxStep at h
  cases h1 : findMaxCoeffForChannels levels i with
  | error e1 =>
    rw [h1, error_bind] at h; cases h
    exact findMaxCoeffForChannels_error hne hm h1
  | ok c =>
    rw [h1, ok_bind] at h
    cases h2 : readAt levels c with
    | error e2 => rw [h2, error_bind] at h; cases h; exact readAt_error h2
    | ok level =>
      rw [h2, ok_bind] at h
      cases h3 : readAt level.2 i with
      | error e3 => rw [h3, error_bind] at h; cases h; exact readAt_error h3
      | ok v =>
        rw [h3, ok_bind] at h
        exact writeAt_error h

/-- C15. The call `fuseLevelByMaxCoeff(levels, n)` stops on a failed `CHECK`
if and only if the list of levels is empty or `n = 0`; for a non-empty list
whose residuals have at least `n` entries and `n > 0` it returns a result. -/
theorem fuseLevelByMaxCoeff_check (levels : List PyramidLevel) (n : ℕ)
    (hm : levels.length < U32) :
    (fuseLevelByMaxCoeff levels n = .error .check_failed ↔ levels = [] ∨ n = 0) ∧
      (levels ≠ [] → 0 < n → (∀ lvl ∈ levels, n ≤ lvl.2.length) →
        ∃ fused, fuseLevelByMaxCoeff levels n = .ok fused) := by
  constructor
  · constructor
    · intro h
      by_contra hcon
      rw [not_or] at hcon
      obtain ⟨hne, hn0⟩ := hcon
      have hl0 : levels.length ≠ 0 := fun h0 => hne (List.length_eq_zero.mp h0)
      unfold fuseLevelByMaxCoeff at h
      rw [if_neg hl0, if_neg hn0] at h
      obtain ⟨i, t, hb⟩ := forLoop_error _ _ _ _ _ h
      have := fuseMaxStep_error hne hm hb
      cases this
    · intro h
      unfold fuseLevelByMaxCoeff
      rcases h with h | h
      · rw [h]; rfl
      · by_cases hl0 : levels.length = 0
        · rw [if_pos hl0]
        · rw [if_neg hl0, if_pos h]
  · intro hne hn0 hres
    obtain ⟨fused, hf, _⟩ := fuseLevelByMaxCoeff_spec levels n hne hm hn0 hres
    exact ⟨fused, hf⟩

/-- Witness of C15 at one channel and one bin. -/
theorem fuseLevelByMaxCoeff_check_witness :
    (fuseLevelByMaxCoeff [([], [(1, 0)])] 1 = .error .check_failed ↔
        [(([], [(1, 0)]) : PyramidLevel)] = [] ∨ 1 = 0) ∧
      ([(([], [(1, 0)]) : PyramidLevel)] ≠ [] → 0 < 1 →
        (∀ lvl ∈ [(([], [(1, 0)]) : PyramidLevel)], 1 ≤ lvl.2.length) →
        ∃ fused, fuseLevelByMaxCoeff [([], [(1, 0)])] 1 = .ok fused) :=
  fuseLevelByMaxCoeff_check [([], [(1, 0)])] 1 (by decide)

/-- C16, failing input. With `n_levels = 0` no level is built, no `CHECK` is
reached, and `fuseChannels` calls `back()` on the empty `pyramids_per_channel`:
undefined behaviour instead of a failed precondition check, for every channel
list and bin count. -/
theorem fuseChannels_zero_levels (d : ℚ) (channels : List (List complex_t)) (n : ℕ) :
    fuseChannels d channels n 0 = .error .out_of_bounds := by
  unfold fuseChannels
  rw [forRange_of_le _ _ (Nat.le_refl 0), ok_bind]
  rfl

/-! ## The frame of `expand` and the index safety of `fuseChannels` -/

/-- C21. Frame of `expand`: for a residual of length `n`, a divider with
`lower_bound = round(n / divider) ≤ upper_bound = n - lower_bound` and a
`low_pass` with at least `upper_bound - lower_bound` entries, `expand` returns
with `residual` still of length `n`, unchanged at every bin outside
`[lower_bound, upper_bound)` and holding `low_pass[k]` at `lower_bound + k` for
`k < upper_bound - lower_bound`; `low_pass` is a read-only argument, and the
same call applied to the result returns the result again. -/
theorem expand_frame (d : ℚ) (low_pass residual : List complex_t) (n : ℕ)
    (hlen : residual.length = n) (hn : n < U32)
    (hband : lower_bound d n ≤ n - lower_bound d n)
    (hlow : n - lower_bound d n - lower_bound d n ≤ low_pass.length) :
    ∃ out, expand d low_pass residual = .ok out ∧ out.length = n ∧
      (∀ i, ¬ (lower_bound d n ≤ i ∧ i < n - lower_bound d n) → out[i]? = residual[i]?) ∧
      (∀ k, k < n - lower_bound d n - lower_bound d n →
        ∃ v, low_pass[k]? = some v ∧ out[lower_bound d n + k]? = some v) ∧
      expand d low_pass out = .ok out := by
  obtain ⟨out, hex, ho1, ho2⟩ :=
    expand_spec d low_pass residual n hn hlen hband (by omega)
  obtain ⟨out2, hex2, ho21, ho22⟩ := expand_spec d low_pass out n hn ho1 hband (by omega)
  refine ⟨out, hex, ho1, ?_, ?_, ?_⟩
  · intro i hi
    rw [ho2 i, if_neg hi]
  · intro k hk
    have hkl : k < low_pass.length := by omega
    refine ⟨low_pass[k], List.getElem?_eq_getElem hkl, ?_⟩
    rw [ho2, if_pos (by omega), ← List.getElem?_eq_getElem hkl]
    congr 1; omega
  · rw [hex2]
    congr 1
    apply List.ext_getElem?
    intro i
    rw [ho22 i]
    by_cases hb : lower_bound d n ≤ i ∧ i < n - lower_bound d n
    · rw [if_pos hb, ho2 i, if_pos hb]
    · rw [if_neg hb]

/-- Witness of C21 at `divider = 4`, `n = 8` and a `low_pass` of four entries. -/
theorem expand_frame_witness :
    ∃ out, expand 4 [(1, 2), (3, 4), (5, 6), (7, 8)] (createFixedCoefficients 9 8) = .ok out ∧
      out.length = 8 ∧
      (∀ i, ¬ (lower_bound 4 8 ≤ i ∧ i < 8 - lower_bound 4 8) →
        out[i]? = (createFixedCoefficients 9 8)[i]?) ∧
      (∀ k, k < 8 - lower_bound 4 8 - lower_bound 4 8 →
        ∃ v, [(((1 : ℚ), (2 : ℚ)) : complex_t), (3, 4), (5, 6), (7, 8)][k]? = some v ∧
          out[lower_bound 4 8 + k]? = some v) ∧
      expand 4 [(1, 2), (3, 4), (5, 6), (7, 8)] out = .ok out :=
  expand_frame 4 [(1, 2), (3, 4), (5, 6), (7, 8)] (createFixedCoefficients 9 8) 8 rfl
    (by decide) (by rw [lower_bound_4_8]; decide) (by rw [lower_bound_4_8]; decide)

/-- The pyramid level of a channel with at least `n` coefficients: `reduce`
returns, with a `low_pass` of `n - 2 * lower_bound` and a residual of `n`
entries. -/
theorem reduceD_lengths (d : ℚ) (ch : List complex_t) (n : ℕ) (hn : n < U32)
    (hlen : n ≤ ch.length) (hband : 2 * lower_bound d n ≤ n) :
    reduce d ch n = .ok (reduceD d ch n) ∧
      (reduceD d ch n).1.length = n - 2 * lower_bound d n ∧
      (reduceD d ch n).2.length = n := by
  obtain ⟨low, res, hred, hl1, hr1, _, _⟩ := reduce_ok d ch n hn hlen (by omega)
  rw [reduceD_of_ok hred]
  exact ⟨hred, by rw [hl1, n_low_pass_of_le hn hband], hr1⟩

/-- C22. Index safety of the fusion pipeline: for a non-empty channel list,
channels of at least `n` coefficients, `n > 0`, `1 ≤ n_levels ≤ 127` and
`2 * round(n / divider) ≤ n`, no access of `fuseChannels` leaves its buffer:
every `reduce` returns, `fuseLevelByMaxCoeff` and `fuseLastLowPassLayer`
return, every one of the `n_levels` calls of `expand` returns and receives a
`low_pass` of at least `n - 2 * round(n / divider)` entries, and `fuseChannels`
returns `n` coefficients. -/
theorem fuseChannels_in_bounds (d : ℚ) (channels : List (List complex_t)) (n L : ℕ)
    (hne : channels ≠ []) (hm : channels.length < U32)
    (hlen : ∀ ch ∈ channels, n ≤ ch.length) (hn0 : 0 < n) (hn : n < U32)
    (hband : 2 * lower_bound d n ≤ n) (hL1 : 1 ≤ L) (hL : L ≤ 127) :
    ∃ (levels : List PyramidLevel) (fused low_pass out : List complex_t),
      (∀ ch ∈ channels, ∃ l, reduce d ch n = .ok l ∧ l ∈ levels) ∧
      fuseLevelByMaxCoeff levels n = .ok fused ∧
      fuseLastLowPassLayer levels = .ok low_pass ∧
      (∀ k, k < L → ∃ r r', reconIter d fused k low_pass = .ok r ∧
        n - 2 * lower_bound d n ≤ r.length ∧ expand d r fused = .ok r') ∧
      fuseChannels d channels n L = reconIter d fused L low_pass ∧
      fuseChannels d channels n L = .ok out ∧ out.length = n := by
  have hband2 : lower_bound d n ≤ n - lower_bound d n := by omega
  have hlv_ne : channels.map (fun ch => reduceD d ch n) ≠ [] := by simpa using hne
  have hlv_len : (channels.map (fun ch => reduceD d ch n)).length < U32 := by simpa using hm
  have hres : ∀ lvl ∈ channels.map (fun ch => reduceD d ch n), n ≤ lvl.2.length := by
    intro lvl hl
    obtain ⟨ch, hch, rfl⟩ := List.mem_map.mp hl
    exact Nat.le_of_eq (reduceD_lengths d ch n hn (hlen ch hch) hband).2.2.symm
  have hlow : ∀ lvl ∈ channels.map (fun ch => reduceD d ch n),
      lvl.1.length = n - 2 * lower_bound d n := by
    intro lvl hl
    obtain ⟨ch, hch, rfl⟩ := List.mem_map.mp hl
    exact (reduceD_lengths d ch n hn (hlen ch hch) hband).2.1
  obtain ⟨fused, hf, hflen, _⟩ := fuseLevelByMaxCoeff_spec _ n hlv_ne hlv_len hn0 hres
  have hlast := fuseLastLowPassLayer_spec _ (n - 2 * lower_bound d n) hlv_ne hlv_len
    (by omega) hlow
  have hchain : fuseChannels d channels n L = reconIter d fused L
      ((List.range (n - 2 * lower_bound d n)).map
        (low_pass_mean (channels.map (fun ch => reduceD d ch n)))) := by
    rw [fuseChannels_eq d channels n L fused (by omega) (by unfold U32; omega) hm
      (fun ch hch => ⟨_, (reduceD_lengths d ch n hn (hlen ch hch) hband).1⟩) hf,
      hlast, ok_bind, reconCount_of_le_128 (by omega) (by omega)]
  obtain ⟨out, hout, _, _, hk⟩ := reconIter_ok d fused n hn hflen hband2 L
    ((List.range (n - 2 * lower_bound d n)).map
      (low_pass_mean (channels.map (fun ch => reduceD d ch n)))) (by simp)
  refine ⟨_, fused, _, out, ?_, hf, hlast, ?_, hchain, by rw [hchain, hout], (hk (by omega)).1⟩
  · intro ch hch
    exact ⟨_, (reduceD_lengths d ch n hn (hlen ch hch) hband).1,
      List.mem_map.mpr ⟨ch, hch, rfl⟩⟩
  · intro k _
    obtain ⟨r, hr, hrlen, _, _⟩ := reconIter_ok d fused n hn hflen hband2 k
      ((List.range (n - 2 * lower_bound d n)).map
        (low_pass_mean (channels.map (fun ch => reduceD d ch n)))) (by simp)
    obtain ⟨r', hr', _, _⟩ := expand_spec d r fused n hn hflen hband2 hrlen
    exact ⟨r, r', hr, hrlen, hr'⟩

/-- Witness of C22 at the test: constant channels `5` and `15`, `n = 8`,
`divider = 4`, two levels. -/
theorem fuseChannels_in_bounds_witness :
    ∃ (levels : List PyramidLevel) (fused low_pass out : List complex_t),
      (∀ ch ∈ [createFixedCoefficients 5 8, createFixedCoefficients 15 8],
        ∃ l, reduce 4 ch 8 = .ok l ∧ l ∈ levels) ∧
      fuseLevelByMaxCoeff levels 8 = .ok fused ∧
      fuseLastLowPassLayer levels = .ok low_pass ∧
      (∀ k, k < 2 → ∃ r r', reconIter 4 fused k low_pass = .ok r ∧
        8 - 2 * lower_bound 4 8 ≤ r.length ∧ expand 4 r fused = .ok r') ∧
      fuseChannels 4 [createFixedCoefficients 5 8, createFixedCoefficients 15 8] 8 2 =
        reconIter 4 fused 2 low_pass ∧
      fuseChannels 4 [createFixedCoefficients 5 8, createFixedCoefficients 15 8] 8 2 = .ok out ∧
      out.length = 8 :=
  fuseChannels_in_bounds 4 [createFixedCoefficients 5 8, createFixedCoefficients 15 8] 8 2
    (by simp) (by decide) (by simp [createFixedCoefficients]) (by decide) (by decide)
    (by rw [lower_bound_4_8]; decide) (by decide) (by decide)

end fusion

namespace correlation

open fusion

/-! ## The frequency-domain product -/

/-- The loop of `complexMulSeq` writes the product with the conjugate into the
first `N` entries of `C` and leaves `F`, `G` and the rest of `C` alone. -/
theorem complexMulSeq_ok (self : SpatialCorrelationLowPass) (F G C : List complex_t)
    (hF : self.total_n_voxels_ ≤ F.length) (hG : self.total_n_voxels_ ≤ G.length)
    (hC : self.total_n_voxels_ ≤ C.length) :
    ∃ C', self.complexMulSeq ⟨F, G, C⟩ = .ok ⟨F, G, C'⟩ ∧ C'.length = C.length ∧
      (∀ i, i < self.total_n_voxels_ → ∃ f g, F[i]? = some f ∧ G[i]? = some g ∧
        C'[i]? = some (f.1 * g.1 - f.2 * (-g.2), f.1 * (-g.2) + f.2 * g.1)) ∧
      (∀ i, self.total_n_voxels_ ≤ i → C'[i]? = C[i]?) := by
  obtain ⟨s, hs, h1, h2, h3, h4, h5⟩ := forRange_inv complexMulStep
    (fun i s => s.F = F ∧ s.G = G ∧ s.C.length = C.length ∧
      (∀ k, k < i → ∃ f g, F[k]? = some f ∧ G[k]? = some g ∧
        s.C[k]? = some (f.1 * g.1 - f.2 * (-g.2), f.1 * (-g.2) + f.2 * g.1)) ∧
      (∀ k, i ≤ k → s.C[k]? = C[k]?))
    0 self.total_n_voxels_ ⟨F, G, C⟩ (Nat.zero_le _)
    ⟨rfl, rfl, rfl, fun k hk => absurd hk (Nat.not_lt_zero k), fun _ _ => rfl⟩
    (by
      rintro i ⟨F0, G0, C0⟩ _ hi ⟨h1, h2, h3, h4, h5⟩
      simp only at h1 h2 h3 h4 h5
      subst h1; subst h2
      have hFi : i < F0.length := by omega
      have hGi : i < G0.length := by omega
      have hCi : i < C0.length := by omega
      refine ⟨⟨F0, G0, C0.set i (F0[i].1 * G0[i].1 - F0[i].2 * (-G0[i].2),
        F0[i].1 * (-G0[i].2) + F0[i].2 * G0[i].1)⟩, ?_, rfl, rfl, by simp [h3], ?_, ?_⟩
      · simp only [complexMulStep, readAt_of_lt hFi, readAt_of_lt hGi, writeAt_of_lt _ hCi,
          ok_bind]
        rfl
      · intro k hk
        by_cases hik : i = k
        · subst hik
          exact ⟨F0[i], G0[i], List.getElem?_eq_getElem hFi, List.getElem?_eq_getElem hGi,
            by simp [List.getElem?_set, hCi]⟩
        · obtain ⟨f, g, hf, hg, hc⟩ := h4 k (by omega)
          exact ⟨f, g, hf, hg, by simp only [List.getElem?_set, hik, if_false]; exact hc⟩
      · intro k hk
        have hik : i ≠ k := by omega
        simp only [List.getElem?_set, hik, if_false]
        exact h5 k (by omega))
  refine ⟨s.C, ?_, h3, h4, h5⟩
  unfold SpatialCorrelationLowPass.complexMulSeq
  rw [hs]
  congr 1
  cases s
  simp only at h1 h2
  subst h1; subst h2
  rfl

/-- C13. Frequency-domain cross-correlation: for spectra `F` and `G` with `N`
bins and an output buffer `C`, whatever the configured low-pass bounds,
`complexMulSeq` returns with `C[i] = F[i] · conj(G[i])` at every bin `i < N`,
that is `C[i].re = F[i].re·G[i].re + F[i].im·G[i].im` and
`C[i].im = F[i].im·G[i].re - F[i].re·G[i].im`, and leaves `F` and `G` unchanged. -/
theorem complexMulSeq_conj (self : SpatialCorrelationLowPass) (F G C : List complex_t)
    (hF : F.length = self.total_n_voxels_) (hG : G.length = self.total_n_voxels_)
    (hC : self.total_n_voxels_ ≤ C.length) :
    ∃ s, self.complexMulSeq ⟨F, G, C⟩ = .ok s ∧ s.F = F ∧ s.G = G ∧
      s.C.length = C.length ∧
      ∀ i, i < self.total_n_voxels_ → ∃ f g, F[i]? = some f ∧ G[i]? = some g ∧
        s.C[i]? = some (f.1 * g.1 + f.2 * g.2, f.2 * g.1 - f.1 * g.2) := by
  obtain ⟨C', hs, hlen, hprod, _⟩ :=
    complexMulSeq_ok self F G C (Nat.le_of_eq hF.symm) (Nat.le_of_eq hG.symm) hC
  refine ⟨⟨F, G, C'⟩, hs, rfl, rfl, hlen, ?_⟩
  intro i hi
  obtain ⟨f, g, hf, hg, hc⟩ := hprod i hi
  refine ⟨f, g, hf, hg, ?_⟩
  rw [hc]
  congr 2 <;> ring

/-- Witness of C13 at two bins, with a band that retains only bin `0`. -/
theorem complexMulSeq_conj_witness :
    ∃ s, (SpatialCorrelationLowPass.construct 0 1 2).complexMulSeq
        ⟨[(1, 2), (3, 4)], [(5, 6), (7, 8)], [(0, 0), (0, 0)]⟩ = .ok s ∧
      s.F = [(1, 2), (3, 4)] ∧ s.G = [(5, 6), (7, 8)] ∧
      s.C.length = [((0 : ℚ), (0 : ℚ)), (0, 0)].length ∧
      ∀ i, i < (SpatialCorrelationLowPass.construct 0 1 2).total_n_voxels_ →
        ∃ f g, [((1 : ℚ), (2 : ℚ)), (3, 4)][i]? = some f ∧
          [((5 : ℚ), (6 : ℚ)), (7, 8)][i]? = some g ∧
          s.C[i]? = some (f.1 * g.1 + f.2 * g.2, f.2 * g.1 - f.1 * g.2) :=
  complexMulSeq_conj (SpatialCorrelationLowPass.construct 0 1 2)
    [(1, 2), (3, 4)] [(5, 6), (7, 8)] [(0, 0), (0, 0)] rfl rfl (by decide)

/-! ## The configured bounds -/

/-- The upper bound stored by the constructor never exceeds the bin count. -/
theorem construct_upper_le (lo hi : ℤ) (N : ℕ) :
    (SpatialCorrelationLowPass.construct lo hi N).low_pass_upper_bound_ ≤ N := by
  simp [SpatialCorrelationLowPass.construct]

/-- With the default flag values `0` and `1000` the bounds are `0` and
`min(1000, N)`. -/
theorem construct_defaults (N : ℕ) :
    (SpatialCorrelationLowPass.construct 0 1000 N).low_pass_lower_bound_ = 0 ∧
      (SpatialCorrelationLowPass.construct 0 1000 N).low_pass_upper_bound_ = min 1000 N := by
  constructor
  · rfl
  · have : castU32 1000 = 1000 := by decide
    simp [SpatialCorrelationLowPass.construct, this]

/-- The lower bound stored by the constructor is the flag value converted to
`uint32_t`, whatever the bin count. -/
theorem construct_lower (lo hi : ℤ) (N : ℕ) :
    (SpatialCorrelationLowPass.construct lo hi N).low_pass_lower_bound_ = castU32 lo := rfl

/-- C14, failing input. The constructor passes the upper flag through
`std::min(..., n_voxels)` but stores the lower flag as it is: for `N = 8` and
a lower flag of `9` the engine has `low_pass_lower_bound_ = 9 > N`, and a
lower flag of `-1` becomes `4294967295`. -/
theorem construct_lower_bound_not_clamped :
    (SpatialCorrelationLowPass.construct 9 1000 8).total_n_voxels_ = 8 ∧
      (SpatialCorrelationLowPass.construct 9 1000 8).low_pass_lower_bound_ = 9 ∧
      (SpatialCorrelationLowPass.construct 9 1000 8).low_pass_upper_bound_ = 8 ∧
      ¬ ((SpatialCorrelationLowPass.construct 9 1000 8).low_pass_lower_bound_ ≤ 8) ∧
      (SpatialCorrelationLowPass.construct (-1) 1000 8).low_pass_lower_bound_ = 4294967295 := by
  have h9 : castU32 9 = 9 := by decide
  have hneg : castU32 (-1) = 4294967295 := by decide
  have hup : castU32 1000 = 1000 := by decide
  refine ⟨rfl, ?_, ?_, ?_, ?_⟩
  · rw [construct_lower, h9]
  · simp [SpatialCorrelationLowPass.construct, hup]
  · rw [construct_lower, h9]; decide
  · rw [construct_lower, hneg]

/-- C17, failing input. An engine with `N = 2` and the band `[0, 1)`: the two
spectra `F = [1, 1]` and `F' = [1, 2]` agree on the band and differ only at
bin `1` outside it, `G` is the same, and the products differ at bin `1`:
`complexMulSeq` runs over all `N` bins and never reads the bounds. -/
theorem complexMulSeq_not_band_limited :
    (SpatialCorrelationLowPass.construct 0 1 2).low_pass_lower_bound_ = 0 ∧
      (SpatialCorrelationLowPass.construct 0 1 2).low_pass_upper_bound_ = 1 ∧
      (SpatialCorrelationLowPass.construct 0 1 2).complexMulSeq
          ⟨[(1, 0), (1, 0)], [(1, 0), (1, 0)], [(0, 0), (0, 0)]⟩ =
        .ok ⟨[(1, 0), (1, 0)], [(1, 0), (1, 0)], [(1, 0), (1, 0)]⟩ ∧
      (SpatialCorrelationLowPass.construct 0 1 2).complexMulSeq
          ⟨[(1, 0), (2, 0)], [(1, 0), (1, 0)], [(0, 0), (0, 0)]⟩ =
        .ok ⟨[(1, 0), (2, 0)], [(1, 0), (1, 0)], [(1, 0), (2, 0)]⟩ ∧
      ([((1 : ℚ), (0 : ℚ)), (1, 0)] : List complex_t) ≠ [(1, 0), (2, 0)] := by
  refine ⟨by decide, by decide, ?_, ?_, by simp⟩
  · norm_num [SpatialCorrelationLowPass.complexMulSeq, SpatialCorrelationLowPass.construct,
      forRange, forLoop, complexMulStep, readAt, writeAt, bind, Except.bind, pure, Except.pure]
  · norm_num [SpatialCorrelationLowPass.complexMulSeq, SpatialCorrelationLowPass.construct,
      forRange, forLoop, complexMulStep, readAt, writeAt, bind, Except.bind, pure, Except.pure]

/-! ## Self-correlation and exchange of the inputs -/

/-- C23. The self-correlation spectrum is real and non-negative, and swapping
the inputs conjugates the result: for spectra `F`, `G` of length `N` and every
bin `i < N`, `complexMulSeq(F, F, C)` gives `C[i].im = 0` and
`C[i].re = F[i].re² + F[i].im² ≥ 0`, and the result `C'` of
`complexMulSeq(G, F, C')` has `C'[i].re = C[i].re` and `C'[i].im = -C[i].im`
for the result `C` of `complexMulSeq(F, G, C)`. -/
theorem complexMulSeq_self_swap (self : SpatialCorrelationLowPass)
    (F G C C' : List complex_t)
    (hF : F.length = self.total_n_voxels_) (hG : G.length = self.total_n_voxels_)
    (hC : self.total_n_voxels_ ≤ C.length) (hC' : self.total_n_voxels_ ≤ C'.length) :
    (∃ s, self.complexMulSeq ⟨F, F, C⟩ = .ok s ∧
      ∀ i, i < self.total_n_voxels_ → ∃ f c, F[i]? = some f ∧ s.C[i]? = some c ∧
        c.2 = 0 ∧ c.1 = f.1 ^ 2 + f.2 ^ 2 ∧ 0 ≤ c.1) ∧
    (∃ s s', self.complexMulSeq ⟨F, G, C⟩ = .ok s ∧ self.complexMulSeq ⟨G, F, C'⟩ = .ok s' ∧
      ∀ i, i < self.total_n_voxels_ → ∃ c c', s.C[i]? = some c ∧ s'.C[i]? = some c' ∧
        c'.1 = c.1 ∧ c'.2 = -c.2) := by
  have hFle := Nat.le_of_eq hF.symm
  have hGle := Nat.le_of_eq hG.symm
  constructor
  · obtain ⟨C1, hs, _, hprod, _⟩ := complexMulSeq_ok self F F C hFle hFle hC
    refine ⟨⟨F, F, C1⟩, hs, ?_⟩
    intro i hi
    obtain ⟨f, g, hf, hg, hc⟩ := hprod i hi
    rw [hf] at hg; cases hg
    refine ⟨f, _, hf, hc, ?_, ?_, ?_⟩
    · show f.1 * (-f.2) + f.2 * f.1 = 0
      ring
    · show f.1 * f.1 - f.2 * (-f.2) = f.1 ^ 2 + f.2 ^ 2
      ring
    · show 0 ≤ f.1 * f.1 - f.2 * (-f.2)
      nlinarith [mul_self_nonneg f.1, mul_self_nonneg f.2]
  · obtain ⟨C1, hs, _, hprod, _⟩ := complexMulSeq_ok self F G C hFle hGle hC
    obtain ⟨C2, hs2, _, hprod2, _⟩ := complexMulSeq_ok self G F C' hGle hFle hC'
    refine ⟨⟨F, G, C1⟩, ⟨G, F, C2⟩, hs, hs2, ?_⟩
    intro i hi
    obtain ⟨f, g, hf, hg, hc⟩ := hprod i hi
    obtain ⟨g2, f2, hg2, hf2, hc2⟩ := hprod2 i hi
    rw [hf] at hf2; cases hf2
    rw [hg] at hg2; cases hg2
    refine ⟨_, _, hc, hc2, ?_, ?_⟩
    · show g.1 * f.1 - g.2 * (-f.2) = f.1 * g.1 - f.2 * (-g.2)
      ring
    · show g.1 * (-f.2) + g.2 * f.1 = -(f.1 * (-g.2) + f.2 * g.1)
      ring

/-- Witness of C23 at two bins. -/
theorem complexMulSeq_self_swap_witness :
    (∃ s, (SpatialCorrelationLowPass.construct 0 1000 2).complexMulSeq
        ⟨[(1, 2), (3, 4)], [(1, 2), (3, 4)], [(0, 0), (0, 0)]⟩ = .ok s ∧
      ∀ i, i < (SpatialCorrelationLowPass.construct 0 1000 2).total_n_voxels_ →
        ∃ f c, [(((1 : ℚ), (2 : ℚ)) : complex_t), (3, 4)][i]? = some f ∧ s.C[i]? = some c ∧
          c.2 = 0 ∧ c.1 = f.1 ^ 2 + f.2 ^ 2 ∧ 0 ≤ c.1) ∧
    (∃ s s', (SpatialCorrelationLowPass.construct 0 1000 2).complexMulSeq
        ⟨[(1, 2), (3, 4)], [(5, 6), (7, 8)], [(0, 0), (0, 0)]⟩ = .ok s ∧
      (SpatialCorrelationLowPass.construct 0 1000 2).complexMulSeq
        ⟨[(5, 6), (7, 8)], [(1, 2), (3, 4)], [(9, 9), (9, 9)]⟩ = .ok s' ∧
      ∀ i, i < (SpatialCorrelationLowPass.construct 0 1000 2).total_n_voxels_ →
        ∃ c c', s.C[i]? = some c ∧ s'.C[i]? = some c' ∧ c'.1 = c.1 ∧ c'.2 = -c.2) :=
  complexMulSeq_self_swap (SpatialCorrelationLowPass.construct 0 1000 2)
    [(1, 2), (3, 4)] [(5, 6), (7, 8)] [(0, 0), (0, 0)] [(9, 9), (9, 9)] rfl rfl
    (by decide) (by decide)

end correlation
